import Mathlib

/-!
Shallow embedding of the versioned publish and projection engine of the
ingestor-reader repository: partition strategy, version manager, manifest
manager, staging manager, projection merger, atomic projection mover,
projection manifest manager and the projection orchestrator, together with
proofs about the specification claims.

Modelling conventions.
Object-store keys are modelled as lists of path components: the Python code
builds every key by joining components with a slash and splits keys back on
the slash, so a key string corresponds to its slash-split component list.
Record field values are modelled by an explicit type of Python values
covering exactly the shapes the code inspects (absent, None, str, int,
datetime).  Thread pools default to one worker, so the bulk stages are
modelled sequentially.  Stored objects are modelled structurally (a records
document, a version manifest document, a projection manifest document, or
an opaque blob) instead of as JSON byte strings; serialization is the
identity on these documents.
-/

/-- Decimal digit character for a digit value below ten. -/
def digChar (d : Nat) : Char := Char.ofNat (48 + d)

/-- Numeric value of a decimal digit character. -/
def digVal (c : Char) : Nat := c.toNat - 48

/-- Fuelled loop computing the decimal digits of a natural number, most
significant first; any fuel above the argument is enough. -/
def natDigitsGo (fuel n : Nat) : List Char :=
  match fuel with
  | 0 => []
  | fuel' + 1 =>
    if n < 10 then [digChar n]
    else natDigitsGo fuel' (n / 10) ++ [digChar (n % 10)]

/-- Decimal digits of a natural number, most significant first. -/
def natDigits (n : Nat) : List Char := natDigitsGo (n + 1) n

theorem natDigitsGo_congr (fuel1 : Nat) :
    ∀ fuel2 n, n < fuel1 → n < fuel2 →
      natDigitsGo fuel1 n = natDigitsGo fuel2 n := by
  induction fuel1 with
  | zero => omega
  | succ f1 ih =>
    intro fuel2 n h1 h2
    match fuel2, h2 with
    | f2 + 1, _ =>
      simp only [natDigitsGo]
      split
      · rfl
      · next hn =>
        rw [ih f2 (n / 10) (by omega) (by omega)]

theorem natDigits_unfold (n : Nat) :
    natDigits n =
      if n < 10 then [digChar n]
      else natDigits (n / 10) ++ [digChar (n % 10)] := by
  show natDigitsGo (n + 1) n = _
  simp only [natDigitsGo]
  split
  · rfl
  · next hn =>
    rw [natDigitsGo_congr n (n / 10 + 1) (n / 10) (by omega) (by omega)]
    rfl

/-- Decimal rendering of a natural number (Python str on a nonnegative int). -/
def natStr (n : Nat) : String := String.mk (natDigits n)

/-- Digits of a number left-padded with zeros to a fixed width, as the
Python format specifiers 02d, 04d and the strftime directive f produce. -/
def padChars (w n : Nat) : List Char :=
  List.replicate (w - (natDigits n).length) '0' ++ natDigits n

/-- String form of the zero-padded fixed-width decimal rendering. -/
def padStr (w n : Nat) : String := String.mk (padChars w n)

/-- Value of a list of decimal digit characters read left to right. -/
def digitsToNat (l : List Char) : Nat :=
  l.foldl (fun a c => 10 * a + digVal c) 0

theorem digChar_isDigit : ∀ d < 10, (digChar d).isDigit = true := by decide

theorem digVal_digChar : ∀ d < 10, digVal (digChar d) = d := by decide

theorem natDigits_all_digits (n : Nat) : ∀ c ∈ natDigits n, c.isDigit = true := by
  induction n using Nat.strong_induction_on with
  | _ n ih =>
    rw [natDigits_unfold]
    split
    · next h =>
      intro c hc
      simp only [List.mem_singleton] at hc
      exact hc ▸ digChar_isDigit n h
    · next h =>
      intro c hc
      rcases List.mem_append.mp hc with h1 | h2
      · exact ih (n / 10) (Nat.div_lt_self (by omega) (by omega)) c h1
      · simp only [List.mem_singleton] at h2
        exact h2 ▸ digChar_isDigit (n % 10) (Nat.mod_lt _ (by omega))

theorem natDigits_ne_nil (n : Nat) : natDigits n ≠ [] := by
  rw [natDigits_unfold]
  split
  · simp
  · simp

theorem foldl_digits_acc (b : List Char) (acc : Nat) :
    b.foldl (fun a c => 10 * a + digVal c) acc =
      acc * 10 ^ b.length + digitsToNat b := by
  induction b generalizing acc with
  | nil => simp [digitsToNat]
  | cons c bs ih =>
    simp only [List.foldl_cons, List.length_cons, digitsToNat]
    rw [ih (10 * acc + digVal c), ih (10 * 0 + digVal c)]
    ring

theorem digitsToNat_append (a b : List Char) :
    digitsToNat (a ++ b) = digitsToNat a * 10 ^ b.length + digitsToNat b := by
  simp only [digitsToNat, List.foldl_append]
  exact foldl_digits_acc b _

theorem digitsToNat_natDigits (n : Nat) : digitsToNat (natDigits n) = n := by
  induction n using Nat.strong_induction_on with
  | _ n ih =>
    rw [natDigits_unfold]
    split
    · next h =>
      simp [digitsToNat, digVal_digChar n h]
    · next h =>
      rw [digitsToNat_append]
      rw [ih (n / 10) (Nat.div_lt_self (by omega) (by omega))]
      simp [digitsToNat, digVal_digChar (n % 10) (Nat.mod_lt _ (by omega))]
      omega

theorem natDigits_length_le (n w : Nat) (h : n < 10 ^ w) (hw : 1 ≤ w) :
    (natDigits n).length ≤ w := by
  induction n using Nat.strong_induction_on generalizing w with
  | _ n ih =>
    rw [natDigits_unfold]
    split
    · next _ => simpa using hw
    · next hn =>
      have hw2 : 2 ≤ w := by
        by_contra hcon
        have hw1 : w = 1 := by omega
        subst hw1
        simp only [pow_one] at h
        omega
      have hdiv : n / 10 < 10 ^ (w - 1) := by
        have : n < 10 ^ (w - 1) * 10 := by
          have : 10 ^ w = 10 ^ (w - 1) * 10 := by
            conv_lhs => rw [show w = (w - 1) + 1 by omega]
            rw [pow_succ]
          omega
        omega
      have := ih (n / 10) (Nat.div_lt_self (by omega) (by omega)) (w - 1) hdiv (by omega)
      simp only [List.length_append, List.length_singleton]
      omega

theorem digitsToNat_replicate_zero (k : Nat) (l : List Char) :
    digitsToNat (List.replicate k '0' ++ l) = digitsToNat l := by
  induction k with
  | zero => simp
  | succ m ih =>
    simp only [List.replicate_succ, List.cons_append, digitsToNat, List.foldl_cons]
    have : (10 * 0 + digVal '0') = 0 := by decide
    rw [this]
    exact ih

theorem padChars_length (w n : Nat) (h : n < 10 ^ w) (hw : 1 ≤ w) :
    (padChars w n).length = w := by
  have := natDigits_length_le n w h hw
  simp only [padChars, List.length_append, List.length_replicate]
  omega

theorem digitsToNat_padChars (w n : Nat) : digitsToNat (padChars w n) = n := by
  rw [padChars, digitsToNat_replicate_zero, digitsToNat_natDigits]

theorem padChars_inj (w a b : Nat) (h : padChars w a = padChars w b) : a = b := by
  have ha := digitsToNat_padChars w a
  have hb := digitsToNat_padChars w b
  rw [h] at ha
  omega

theorem padChars_all_digits (w n : Nat) :
    ∀ c ∈ padChars w n, c.isDigit = true := by
  intro c hc
  rcases List.mem_append.mp hc with h1 | h2
  · have := List.eq_of_mem_replicate h1
    subst this
    decide
  · exact natDigits_all_digits n c h2

theorem natDigits_digVal_lt (n : Nat) : ∀ c ∈ natDigits n, digVal c < 10 := by
  induction n using Nat.strong_induction_on with
  | _ n ih =>
    rw [natDigits_unfold]
    split
    · next h =>
      intro c hc
      simp only [List.mem_singleton] at hc
      subst hc
      rw [digVal_digChar n h]
      exact h
    · next h =>
      intro c hc
      rcases List.mem_append.mp hc with h1 | h2
      · exact ih (n / 10) (Nat.div_lt_self (by omega) (by omega)) c h1
      · simp only [List.mem_singleton] at h2
        subst h2
        rw [digVal_digChar (n % 10) (Nat.mod_lt _ (by omega))]
        exact Nat.mod_lt _ (by omega)

theorem padChars_digVal_lt (w n : Nat) : ∀ c ∈ padChars w n, digVal c < 10 := by
  intro c hc
  rcases List.mem_append.mp hc with h1 | h2
  · have := List.eq_of_mem_replicate h1
    subst this
    decide
  · exact natDigits_digVal_lt n c h2

theorem digitsToNat_lt (l : List Char) (h : ∀ c ∈ l, digVal c < 10) :
    digitsToNat l < 10 ^ l.length := by
  induction l using List.reverseRecOn with
  | nil => simp [digitsToNat]
  | append_singleton xs c ih =>
    rw [digitsToNat_append]
    have hc : digVal c < 10 := h c (by simp)
    have hxs := ih (fun x hx => h x (by simp [hx]))
    simp only [List.length_append, List.length_singleton, digitsToNat, List.foldl_cons,
      List.foldl_nil]
    have : digitsToNat xs * 10 ^ 1 + (10 * 0 + digVal c) < 10 ^ (xs.length + 1) := by
      rw [pow_succ]
      have : digitsToNat xs * 10 ≤ (10 ^ xs.length - 1) * 10 := by
        have : digitsToNat xs ≤ 10 ^ xs.length - 1 := by omega
        exact Nat.mul_le_mul_right 10 this
      have hp : 1 ≤ 10 ^ xs.length := Nat.one_le_pow _ _ (by omega)
      omega
    simpa [digitsToNat] using this

/-- Wall-clock reading at microsecond resolution, the fields a Python
datetime value carries as far as this code reads them. -/
structure Ts where
  year : Nat
  month : Nat
  day : Nat
  hour : Nat
  minute : Nat
  second : Nat
  micro : Nat
deriving DecidableEq, Repr

/-- Python values in the shapes the pipeline code inspects: None, strings,
integers and datetime objects. -/
inductive PyVal where
  | none
  | str (s : String)
  | int (n : Int)
  | dt (t : Ts)
deriving DecidableEq, Repr

/-- Python truthiness of a value (None and empty or zero values are falsy,
datetime objects are always truthy). -/
def pyTruthy : PyVal → Bool
  | PyVal.none => false
  | PyVal.str s => s != ""
  | PyVal.int n => n != 0
  | PyVal.dt _ => true

/-- The isoformat rendering of a datetime: date, separator T, time, and a
six-digit fractional part only when the microsecond field is nonzero. -/
def isoformat (t : Ts) : String :=
  padStr 4 t.year ++ "-" ++ padStr 2 t.month ++ "-" ++ padStr 2 t.day ++ "T" ++
    padStr 2 t.hour ++ ":" ++ padStr 2 t.minute ++ ":" ++ padStr 2 t.second ++
    (if t.micro = 0 then "" else "." ++ padStr 6 t.micro)

/-- The strftime rendering with the fixed layout used by the managers for
persisted timestamps, second resolution with a trailing Z. -/
def strftimeZ (t : Ts) : String :=
  padStr 4 t.year ++ "-" ++ padStr 2 t.month ++ "-" ++ padStr 2 t.day ++ "T" ++
    padStr 2 t.hour ++ ":" ++ padStr 2 t.minute ++ ":" ++ padStr 2 t.second ++ "Z"

/-- Python str applied to a value of the modelled shapes. -/
def pyStr : PyVal → String
  | PyVal.none => "None"
  | PyVal.str s => s
  | PyVal.int n => toString n
  | PyVal.dt t => isoformat t

/-- A record processed by the pipeline: the fields the code reads, each
either absent (the dict lacks the key) or bound to a Python value, plus an
opaque payload distinguishing otherwise identical records. -/
structure Item where
  obs_time : Option PyVal := Option.none
  internal_series_code : Option PyVal := Option.none
  collection_date : Option PyVal := Option.none
  payload : Nat := 0
deriving DecidableEq, Repr

/-- Key component the merger computes from the observation time field:
datetime values render through isoformat, other truthy values through str,
falsy values give None. -/
def obsTimeKey (v : Option PyVal) : Option String :=
  match v.getD PyVal.none with
  | PyVal.dt t => some (isoformat t)
  | w => if pyTruthy w then some (pyStr w) else Option.none

/-- Key component the merger computes from the series code field: truthy
values render through str, falsy values give None. -/
def seriesKeyPart (v : Option PyVal) : Option String :=
  let w := v.getD PyVal.none
  if pyTruthy w then some (pyStr w) else Option.none

/-- Deduplication key of a record in the merger, the pair built from the
observation time and the internal series code. -/
def itemKey (it : Item) : Option String × Option String :=
  (obsTimeKey it.obs_time, seriesKeyPart it.internal_series_code)

/-- Loop of the merger deduplication: walk the combined list, keep a record
when its key has not been seen, remember the key. -/
def mergeDedup (seen : List (Option String × Option String)) :
    List Item → List Item
  | [] => []
  | x :: xs =>
    if itemKey x ∈ seen then mergeDedup seen xs
    else x :: mergeDedup (itemKey x :: seen) xs

/-- The merger merge of a projection document and a staging document
(either may be absent): with both present, concatenate projection then
staging and deduplicate by key keeping the first occurrence. -/
def merge_json_data : Option (List Item) → Option (List Item) → List Item
  | Option.none, Option.none => []
  | Option.none, some s => s
  | some p, Option.none => p
  | some p, some s => mergeDedup [] (p ++ s)

theorem mergeDedup_sublist (seen : List (Option String × Option String))
    (l : List Item) : (mergeDedup seen l).Sublist l := by
  induction l generalizing seen with
  | nil => simp [mergeDedup]
  | cons x xs ih =>
    simp only [mergeDedup]
    split
    · exact (ih seen).cons x
    · exact (ih (itemKey x :: seen)).cons₂ x

theorem mergeDedup_first (seen : List (Option String × Option String))
    (l : List Item) :
    ∀ r ∈ mergeDedup seen l,
      itemKey r ∉ seen ∧
        l.find? (fun x => decide (itemKey x = itemKey r)) = some r := by
  induction l generalizing seen with
  | nil => simp [mergeDedup]
  | cons x xs ih =>
    intro r hr
    simp only [mergeDedup] at hr
    split at hr
    · next hseen =>
      obtain ⟨hns, hfind⟩ := ih seen r hr
      have hne : itemKey x ≠ itemKey r := fun he => hns (he ▸ hseen)
      refine ⟨hns, ?_⟩
      rw [List.find?_cons_of_neg _ (by simpa using hne), hfind]
    · next hseen =>
      rcases List.mem_cons.mp hr with he | ht
      · subst he
        exact ⟨hseen, List.find?_cons_of_pos _ (by simp)⟩
      · obtain ⟨hns, hfind⟩ := ih (itemKey x :: seen) r ht
        have hne : itemKey x ≠ itemKey r := by
          intro he
          exact hns (he ▸ List.mem_cons_self _ _)
        refine ⟨fun hc => hns (List.mem_cons_of_mem _ hc), ?_⟩
        rw [List.find?_cons_of_neg _ (by simpa using hne), hfind]

theorem mergeDedup_covers (seen : List (Option String × Option String))
    (l : List Item) :
    ∀ r ∈ l, itemKey r ∉ seen →
      ∃ q ∈ mergeDedup seen l, itemKey q = itemKey r := by
  induction l generalizing seen with
  | nil => simp
  | cons x xs ih =>
    intro r hr hns
    simp only [mergeDedup]
    split
    · next hseen =>
      rcases List.mem_cons.mp hr with he | ht
      · exact absurd (he ▸ hseen) hns
      · exact ih seen r ht hns
    · next hseen =>
      rcases List.mem_cons.mp hr with he | ht
      · exact ⟨x, List.mem_cons_self _ _, by rw [he]⟩
      · by_cases hk : itemKey r = itemKey x
        · exact ⟨x, List.mem_cons_self _ _, hk.symm⟩
        · have hns2 : itemKey r ∉ itemKey x :: seen := by
            intro hc
            rcases List.mem_cons.mp hc with h1 | h2
            · exact hk h1
            · exact hns h2
          obtain ⟨q, hq, hqk⟩ := ih (itemKey x :: seen) r ht hns2
          exact ⟨q, List.mem_cons_of_mem _ hq, hqk⟩

theorem mergeDedup_pairwise (seen : List (Option String × Option String))
    (l : List Item) :
    (mergeDedup seen l).Pairwise (fun a b => itemKey a ≠ itemKey b) := by
  induction l generalizing seen with
  | nil => simp [mergeDedup]
  | cons x xs ih =>
    simp only [mergeDedup]
    split
    · exact ih seen
    · refine List.Pairwise.cons ?_ (ih (itemKey x :: seen))
      intro b hb
      have := (mergeDedup_first (itemKey x :: seen) xs b hb).1
      intro he
      exact this (he ▸ List.mem_cons_self _ _)

/-- C3: for every pair of record lists (projection data, staging data), the
merge result is the projection-then-staging concatenation deduplicated by
the (observation time, series key) key with the first occurrence kept: the
result is an order-preserving subselection of the concatenation, every key
occurring in the concatenation is represented in the result, every kept
record is the first record of the concatenation bearing its key, no two
records of the result share the same (observation time, series key) pair,
and whenever both sides hold a record with the same key, a projection
record with that key is in the result and every result record with that
key comes from the projection side, so the staging record is not kept. -/
theorem merge_dedup_first_occurrence_wins (p s : List Item) :
    (merge_json_data (some p) (some s)).Sublist (p ++ s) ∧
    (∀ r ∈ p ++ s, ∃ q ∈ merge_json_data (some p) (some s),
      itemKey q = itemKey r) ∧
    (∀ r ∈ merge_json_data (some p) (some s),
      (p ++ s).find? (fun x => decide (itemKey x = itemKey r)) = some r) ∧
    (merge_json_data (some p) (some s)).Pairwise
      (fun a b => ¬(a.obs_time = b.obs_time ∧
        a.internal_series_code = b.internal_series_code)) ∧
    (∀ b2 ∈ s, (∃ a ∈ p, itemKey a = itemKey b2) →
      (∃ a ∈ p, a ∈ merge_json_data (some p) (some s) ∧
        itemKey a = itemKey b2) ∧
      (∀ r ∈ merge_json_data (some p) (some s),
        itemKey r = itemKey b2 → r ∈ p)) := by
  have hm : merge_json_data (some p) (some s) = mergeDedup [] (p ++ s) := rfl
  refine ⟨?_, ?_, ?_, ?_, ?_⟩
  · rw [hm]
    exact mergeDedup_sublist [] _
  · intro r hr
    rw [hm]
    exact mergeDedup_covers [] _ r hr (by simp)
  · intro r hr
    rw [hm] at hr
    exact (mergeDedup_first [] _ r hr).2
  · rw [hm]
    refine (mergeDedup_pairwise [] _).imp ?_
    intro a b hne hab
    apply hne
    simp only [itemKey, hab.1, hab.2]
  · intro b2 hb2 hex
    obtain ⟨a, ha, hak⟩ := hex
    have hfp : (p.find? (fun x => decide (itemKey x = itemKey b2))).isSome := by
      rw [List.find?_isSome]
      exact ⟨a, ha, by simpa using hak⟩
    obtain ⟨w, hw⟩ := Option.isSome_iff_exists.mp hfp
    have hwp : w ∈ p := List.mem_of_find?_eq_some hw
    have hwk : itemKey w = itemKey b2 := by
      have := List.find?_some hw
      simpa using this
    have hresult : ∀ r ∈ merge_json_data (some p) (some s),
        itemKey r = itemKey b2 → r = w := by
      intro r hr hrk
      rw [hm] at hr
      have hfind := (mergeDedup_first [] _ r hr).2
      have hpred : (fun x => decide (itemKey x = itemKey r)) =
          (fun x => decide (itemKey x = itemKey b2)) := by
        funext x
        rw [hrk]
      rw [hpred, List.find?_append, hw] at hfind
      simpa using hfind.symm
    constructor
    · have hcov := mergeDedup_covers [] (p ++ s) b2
        (List.mem_append.mpr (Or.inr hb2)) (by simp)
      obtain ⟨q, hq, hqk⟩ := hcov
      rw [← hm] at hq
      have hqw : q = w := hresult q hq hqk
      exact ⟨w, hwp, hqw ▸ hq, hwk⟩
    · intro r hr hrk
      have := hresult r hr hrk
      exact this ▸ hwp

/-- Python exceptions the modelled code raises, collapsed to their class. -/
inductive PyErr where
  | valueError
  | typeError
  | clientError
deriving DecidableEq, Repr

/-- Series code string the strategy computes: str applied to the value of
the series code field, with the empty string default when the field is
absent. -/
def seriesString (it : Item) : String :=
  pyStr (it.internal_series_code.getD (PyVal.str ""))

/-- Partition address of a record under the series-year-month strategy:
series code, unpadded year, two-digit month, with a trailing slash; fails
when the series code renders empty, the observation time is falsy, or the
observation time is not a datetime. -/
def get_partition_path (it : Item) : Except PyErr String :=
  let series_code := seriesString it
  let obs := it.obs_time.getD PyVal.none
  if series_code = "" ∨ pyTruthy obs = false then Except.error PyErr.valueError
  else
    match obs with
    | PyVal.dt t =>
        Except.ok (series_code ++ "/year=" ++ natStr t.year ++ "/month=" ++
          padStr 2 t.month ++ "/")
    | _ => Except.error PyErr.valueError

/-- Insertion step of the dict-of-lists grouping: append the record to the
entry with its partition address, or open a new entry at the end. -/
def groupUpsert (acc : List (String × List Item)) (p : String) (r : Item) :
    List (String × List Item) :=
  if acc.any (fun kl => kl.1 == p) then
    acc.map (fun kl => if kl.1 == p then (kl.1, kl.2 ++ [r]) else kl)
  else acc ++ [(p, [r])]

/-- Loop of the grouping: one pass over the records, keyed insertion into
the accumulator, failing as soon as a partition address fails. -/
def groupGo (acc : List (String × List Item)) :
    List Item → Except PyErr (List (String × List Item))
  | [] => Except.ok acc
  | r :: rs =>
    match get_partition_path r with
    | Except.error e => Except.error e
    | Except.ok p => groupGo (groupUpsert acc p r) rs

/-- Grouping of records by partition address, preserving first-insertion
key order and input order inside each group. -/
def group_by_partition (data : List Item) :
    Except PyErr (List (String × List Item)) :=
  groupGo [] data

/-- Literal matcher used by the partition path parser: strip an expected
prefix or fail. -/
def stripLit (lit l : List Char) : Option (List Char) :=
  if lit.isPrefixOf l then some (l.drop lit.length) else Option.none

/-- Parser for a partition path over its character list, the regex of the
strategy: a nonempty run without a slash, the literal year marker, a
nonempty digit run, the literal month marker, a nonempty digit run, then an
optional slash and arbitrary trailing characters. -/
def parseChars (l : List Char) : Except PyErr (String × String × String) :=
  if (l.takeWhile (fun c => c != '/')).isEmpty then
    Except.error PyErr.valueError
  else
    match stripLit "/year=".data (l.dropWhile (fun c => c != '/')) with
    | Option.none => Except.error PyErr.valueError
    | some r2 =>
      if (r2.takeWhile Char.isDigit).isEmpty then Except.error PyErr.valueError
      else
        match stripLit "/month=".data (r2.dropWhile Char.isDigit) with
        | Option.none => Except.error PyErr.valueError
        | some r4 =>
          if (r4.takeWhile Char.isDigit).isEmpty then
            Except.error PyErr.valueError
          else
            Except.ok (String.mk (l.takeWhile (fun c => c != '/')),
              String.mk (r2.takeWhile Char.isDigit),
              String.mk (r4.takeWhile Char.isDigit))

/-- Parser for a partition path, returning the series code, year and month
components, or the ValueError the strategy raises on a mismatch. -/
def parse_partition_path (path : String) :
    Except PyErr (String × String × String) :=
  parseChars path.data

theorem takeWhile_middle {α : Type} (p : α → Bool) (a : List α) (b : α)
    (rest : List α) (ha : ∀ c ∈ a, p c = true) (hb : p b = false) :
    (a ++ b :: rest).takeWhile p = a ∧
      (a ++ b :: rest).dropWhile p = b :: rest := by
  induction a with
  | nil => simp [List.takeWhile_cons, List.dropWhile_cons, hb]
  | cons x xs ih =>
    have hx : p x = true := ha x (by simp)
    have hxs := ih (fun c hc => ha c (by simp [hc]))
    simp [List.takeWhile_cons, List.dropWhile_cons, hx, hxs.1, hxs.2]

theorem stripLit_append (lit rest : List Char) :
    stripLit lit (lit ++ rest) = some rest := by
  simp [stripLit, List.isPrefixOf_iff_prefix]

theorem get_partition_path_ok (it : Item) (t : Ts)
    (hob : it.obs_time = some (PyVal.dt t)) (hne : seriesString it ≠ "") :
    get_partition_path it =
      Except.ok (seriesString it ++ "/year=" ++ natStr t.year ++ "/month=" ++
        padStr 2 t.month ++ "/") := by
  unfold get_partition_path
  rw [hob]
  simp [hne, pyTruthy]

theorem parseChars_roundtrip (sc : String) (y mo : Nat) (hne : sc ≠ "")
    (hslash : ∀ c ∈ sc.data, c ≠ '/') :
    parseChars (sc ++ "/year=" ++ natStr y ++ "/month=" ++ padStr 2 mo ++
        "/").data =
      Except.ok (sc, natStr y, padStr 2 mo) := by
  have hdata : (sc ++ "/year=" ++ natStr y ++ "/month=" ++ padStr 2 mo ++
      "/").data = sc.data ++ '/' ::
        ("year=".data ++ (natDigits y ++ '/' ::
          ("month=".data ++ (padChars 2 mo ++ '/' :: [])))) := by
    simp only [String.data_append, List.append_assoc]
    rfl
  rw [hdata]
  unfold parseChars
  have h1 := takeWhile_middle (fun c => c != '/') sc.data '/'
    ("year=".data ++ (natDigits y ++ '/' ::
      ("month=".data ++ (padChars 2 mo ++ '/' :: []))))
    (fun c hc => by simpa using hslash c hc) (by decide)
  rw [h1.1, h1.2]
  have hg1 : sc.data.isEmpty = false := by
    cases hsc : sc.data with
    | nil =>
      exact absurd (by cases sc with | mk l => simp at hsc; simp [hsc]) hne
    | cons c cs => rfl
  rw [hg1]
  simp only [Bool.false_eq_true, if_false]
  have hy : ('/' :: ("year=".data ++ (natDigits y ++ '/' ::
      ("month=".data ++ (padChars 2 mo ++ '/' :: []))))) =
      ("/year=".data ++ (natDigits y ++ '/' ::
        ("month=".data ++ (padChars 2 mo ++ '/' :: [])))) := rfl
  rw [hy, stripLit_append]
  dsimp only
  have h2 := takeWhile_middle Char.isDigit (natDigits y) '/'
    ("month=".data ++ (padChars 2 mo ++ '/' :: []))
    (natDigits_all_digits y) (by decide)
  rw [h2.1, h2.2]
  have hg2 : (natDigits y).isEmpty = false := by
    cases hd : natDigits y with
    | nil => exact absurd hd (natDigits_ne_nil y)
    | cons c cs => rfl
  rw [hg2]
  simp only [Bool.false_eq_true, if_false]
  have hmo : ('/' :: ("month=".data ++ (padChars 2 mo ++ '/' :: []))) =
      ("/month=".data ++ (padChars 2 mo ++ '/' :: [])) := rfl
  rw [hmo, stripLit_append]
  dsimp only
  have h3 := takeWhile_middle Char.isDigit (padChars 2 mo) '/' []
    (padChars_all_digits 2 mo) (by decide)
  rw [h3.1]
  have hg3 : (padChars 2 mo).isEmpty = false := by
    cases hd : padChars 2 mo with
    | nil =>
      have := natDigits_ne_nil mo
      simp only [padChars] at hd
      rcases List.append_eq_nil.mp hd with ⟨_, h⟩
      exact absurd h this
    | cons c cs => rfl
  rw [hg3]
  simp only [Bool.false_eq_true, if_false]
  have hsc2 : String.mk sc.data = sc := by
    cases sc with | mk l => rfl
  rw [hsc2]
  rfl

/-- Record with a slash inside its series key, used to separate the
strategy address builder from the address parser. -/
def slashSeriesItem : Item :=
  { obs_time := some (PyVal.dt ⟨2024, 1, 15, 0, 0, 0, 0⟩),
    internal_series_code := some (PyVal.str "A/B") }

/-- C6 counterexample: a record whose series key is the non-empty string
A/B and whose observation time is a datetime maps to the address
A/B/year=2024/month=01/, but parsing that address raises ValueError, so
parseAddress does not succeed on it, contradicting the claim for every
record with a non-empty series key. -/
theorem partition_roundtrip_counterexample :
    seriesString slashSeriesItem = "A/B" ∧
    seriesString slashSeriesItem ≠ "" ∧
    slashSeriesItem.obs_time = some (PyVal.dt ⟨2024, 1, 15, 0, 0, 0, 0⟩) ∧
    get_partition_path slashSeriesItem = Except.ok "A/B/year=2024/month=01/" ∧
    parse_partition_path "A/B/year=2024/month=01/" =
      Except.error PyErr.valueError :=
  ⟨rfl, by decide, rfl, by rfl, by rfl⟩

/-- C6 (amended): for every record with a datetime observation time and a
non-empty series key that contains no slash, the built partition address
parses back to exactly the series key, the rendered year and the two-digit
month of the observation time.  The slash-freedom proviso is forced: a
slash inside the series key makes the parse fail, as the counterexample
shows. -/
theorem partition_roundtrip (it : Item) (t : Ts)
    (hob : it.obs_time = some (PyVal.dt t))
    (hne : seriesString it ≠ "")
    (hslash : ∀ c ∈ (seriesString it).data, c ≠ '/') :
    ∃ path, get_partition_path it = Except.ok path ∧
      parse_partition_path path =
        Except.ok (seriesString it, natStr t.year, padStr 2 t.month) := by
  refine ⟨_, get_partition_path_ok it t hob hne, ?_⟩
  exact parseChars_roundtrip (seriesString it) t.year t.month hne hslash

/-- Record used to instantiate the round-trip theorem. -/
def plainSeriesItem : Item :=
  { obs_time := some (PyVal.dt ⟨2024, 1, 15, 0, 0, 0, 0⟩),
    internal_series_code := some (PyVal.str "SERIES_1") }

theorem partition_roundtrip_witness :
    plainSeriesItem.obs_time = some (PyVal.dt ⟨2024, 1, 15, 0, 0, 0, 0⟩) ∧
    seriesString plainSeriesItem ≠ "" ∧
    (∀ c ∈ (seriesString plainSeriesItem).data, c ≠ '/') ∧
    ∃ path, get_partition_path plainSeriesItem = Except.ok path ∧
      parse_partition_path path =
        Except.ok (seriesString plainSeriesItem, natStr 2024, padStr 2 1) :=
  ⟨rfl, by decide, by decide,
    partition_roundtrip plainSeriesItem ⟨2024, 1, 15, 0, 0, 0, 0⟩ rfl
      (by decide) (by decide)⟩

/-- Membership test for the group of a partition address: the record maps
to exactly that address. -/
def inGroup (k : String) (r : Item) : Bool :=
  match get_partition_path r with
  | Except.ok q => q == k
  | Except.error _ => false

theorem groupUpsert_fst_of_any (acc : List (String × List Item)) (p : String)
    (r : Item) (h : acc.any (fun kl => kl.1 == p) = true) :
    (groupUpsert acc p r).map Prod.fst = acc.map Prod.fst := by
  simp only [groupUpsert, h, if_true, List.map_map]
  apply List.map_congr_left
  intro kl _
  by_cases hk : kl.1 = p
  · simp [hk]
  · simp [hk]

theorem groupUpsert_fst_of_not_any (acc : List (String × List Item))
    (p : String) (r : Item) (h : acc.any (fun kl => kl.1 == p) = false) :
    (groupUpsert acc p r).map Prod.fst = acc.map Prod.fst ++ [p] := by
  simp [groupUpsert, h]

theorem not_any_key (acc : List (String × List Item)) (p : String)
    (h : acc.any (fun kl => kl.1 == p) = false) :
    p ∉ acc.map Prod.fst := by
  intro hmem
  obtain ⟨kl, hkl, hfst⟩ := List.mem_map.mp hmem
  have := List.any_eq_false.mp h kl hkl
  simp [hfst] at this

theorem groupGo_spec (data : List Item) :
    ∀ (acc : List (String × List Item)) (processed : List Item),
      (∀ r ∈ data, ∃ q, get_partition_path r = Except.ok q) →
      (acc.map Prod.fst).Nodup →
      (∀ kl ∈ acc, kl.2 = processed.filter (inGroup kl.1)) →
      (∀ r ∈ processed, ∃ kl ∈ acc, get_partition_path r = Except.ok kl.1) →
      ∃ g, groupGo acc data = Except.ok g ∧
        (g.map Prod.fst).Nodup ∧
        (∀ kl ∈ g, kl.2 = (processed ++ data).filter (inGroup kl.1)) ∧
        (∀ r ∈ processed ++ data,
          ∃ kl ∈ g, get_partition_path r = Except.ok kl.1) := by
  induction data with
  | nil =>
    intro acc processed _ hnd hfil hcov
    exact ⟨acc, rfl, hnd, by simpa using hfil, by simpa using hcov⟩
  | cons r rs ih =>
    intro acc processed hok hnd hfil hcov
    obtain ⟨p, hp⟩ := hok r (by simp)
    have hgo : groupGo acc (r :: rs) = groupGo (groupUpsert acc p r) rs := by
      simp [groupGo, hp]
    have hgrp : inGroup p r = true := by
      simp [inGroup, hp]
    have hgrpne : ∀ k, k ≠ p → inGroup k r = false := by
      intro k hk
      simp only [inGroup, hp, beq_eq_false_iff_ne, ne_eq]
      exact fun he => hk (he ▸ rfl)
    have hnd2 : ((groupUpsert acc p r).map Prod.fst).Nodup := by
      by_cases hany : acc.any (fun kl => kl.1 == p) = true
      · rw [groupUpsert_fst_of_any acc p r hany]
        exact hnd
      · rw [Bool.not_eq_true] at hany
        rw [groupUpsert_fst_of_not_any acc p r hany]
        have hnotin := not_any_key acc p hany
        simp [List.nodup_append, hnd, hnotin]
    have hfil2 : ∀ kl ∈ groupUpsert acc p r,
        kl.2 = (processed ++ [r]).filter (inGroup kl.1) := by
      intro kl hkl
      by_cases hany : acc.any (fun kl => kl.1 == p) = true
      · simp only [groupUpsert, hany, if_true] at hkl
        obtain ⟨kl0, hkl0, hmap⟩ := List.mem_map.mp hkl
        by_cases hk : (kl0.1 == p) = true
        · have hkeq : kl0.1 = p := by simpa using hk
          rw [if_pos hk] at hmap
          subst hmap
          simp only [List.filter_append]
          rw [← hfil kl0 hkl0, hkeq]
          simp [List.filter, hgrp]
        · rw [if_neg hk] at hmap
          subst hmap
          have hkne : kl0.1 ≠ p := by simpa using hk
          simp only [List.filter_append]
          rw [← hfil kl0 hkl0]
          simp [List.filter, hgrpne kl0.1 hkne]
      · have hany2 : acc.any (fun kl => kl.1 == p) = false := by
          rwa [Bool.not_eq_true] at hany
        simp only [groupUpsert, hany2, Bool.false_eq_true, if_false] at hkl
        rcases List.mem_append.mp hkl with hin | hnew
        · have hkne : kl.1 ≠ p := by
            intro he
            have := List.any_eq_false.mp hany2 kl hin
            simp [he] at this
          simp only [List.filter_append]
          rw [← hfil kl hin]
          simp [List.filter, hgrpne kl.1 hkne]
        · simp only [List.mem_singleton] at hnew
          subst hnew
          simp only [List.filter_append]
          have hempty : processed.filter (inGroup p) = [] := by
            rw [List.filter_eq_nil_iff]
            intro r' hr' hgr
            obtain ⟨kl0, hkl0, hq0⟩ := hcov r' hr'
            have hig : inGroup p r' = (kl0.1 == p) := by
              simp [inGroup, hq0]
            rw [hig] at hgr
            have := List.any_eq_false.mp hany2 kl0 hkl0
            simp_all
          rw [hempty]
          simp [List.filter, hgrp]
    have hcov2 : ∀ r' ∈ processed ++ [r],
        ∃ kl ∈ groupUpsert acc p r,
          get_partition_path r' = Except.ok kl.1 := by
      intro r' hr'
      rcases List.mem_append.mp hr' with hin | hre
      · obtain ⟨kl0, hkl0, hq0⟩ := hcov r' hin
        have hmem : kl0.1 ∈ (groupUpsert acc p r).map Prod.fst := by
          by_cases hany : acc.any (fun kl => kl.1 == p) = true
          · rw [groupUpsert_fst_of_any acc p r hany]
            exact List.mem_map_of_mem Prod.fst hkl0
          · rw [Bool.not_eq_true] at hany
            rw [groupUpsert_fst_of_not_any acc p r hany]
            exact List.mem_append.mpr (Or.inl (List.mem_map_of_mem Prod.fst hkl0))
        obtain ⟨kl1, hkl1, hfst⟩ := List.mem_map.mp hmem
        exact ⟨kl1, hkl1, hfst ▸ hq0⟩
      · simp only [List.mem_singleton] at hre
        rw [hre]
        have hmem : p ∈ (groupUpsert acc p r).map Prod.fst := by
          by_cases hany : acc.any (fun kl => kl.1 == p) = true
          · rw [groupUpsert_fst_of_any acc p r hany]
            obtain ⟨kl0, hkl0, hbq⟩ := List.any_eq_true.mp hany
            have : kl0.1 = p := by simpa using hbq
            exact this ▸ List.mem_map_of_mem Prod.fst hkl0
          · rw [Bool.not_eq_true] at hany
            rw [groupUpsert_fst_of_not_any acc p r hany]
            simp
        obtain ⟨kl1, hkl1, hfst⟩ := List.mem_map.mp hmem
        exact ⟨kl1, hkl1, hfst ▸ hp⟩
    obtain ⟨g, hg, hgnd, hgfil, hgcov⟩ := ih (groupUpsert acc p r)
      (processed ++ [r]) (fun r' hr' => hok r' (by simp [hr'])) hnd2 hfil2 hcov2
    refine ⟨g, by rw [hgo]; exact hg, hgnd, ?_, ?_⟩
    · intro kl hkl
      have := hgfil kl hkl
      rwa [List.append_assoc, List.singleton_append] at this
    · intro r' hr'
      apply hgcov
      rw [List.append_assoc, List.singleton_append]
      exact hr'

/-- C7: for every record list in which each record has a datetime
observation time and a non-empty series key, the grouping succeeds and is a
partition of its input: group keys are pairwise distinct, each group is
exactly the records of the input mapping to its key in input order (so no
record is lost, duplicated, or in two groups), and every record has a group
keyed by its own partition address. -/
theorem group_by_partition_cover (data : List Item)
    (hvalid : ∀ r ∈ data,
      (∃ t, r.obs_time = some (PyVal.dt t)) ∧ seriesString r ≠ "") :
    ∃ g, group_by_partition data = Except.ok g ∧
      (g.map Prod.fst).Nodup ∧
      (∀ kl ∈ g, kl.2 = data.filter (inGroup kl.1)) ∧
      (∀ r ∈ data, ∃ kl ∈ g, get_partition_path r = Except.ok kl.1) := by
  have hok : ∀ r ∈ data, ∃ q, get_partition_path r = Except.ok q := by
    intro r hr
    obtain ⟨⟨t, ht⟩, hne⟩ := hvalid r hr
    exact ⟨_, get_partition_path_ok r t ht hne⟩
  have := groupGo_spec data [] [] hok (by simp) (by simp) (by simp)
  simpa [group_by_partition] using this

/-- Records used to instantiate the grouping theorem. -/
def groupItems : List Item :=
  [{ obs_time := some (PyVal.dt ⟨2024, 1, 15, 0, 0, 0, 0⟩),
     internal_series_code := some (PyVal.str "S1") },
   { obs_time := some (PyVal.dt ⟨2024, 2, 10, 0, 0, 0, 0⟩),
     internal_series_code := some (PyVal.str "S1"), payload := 1 },
   { obs_time := some (PyVal.dt ⟨2024, 1, 20, 0, 0, 0, 0⟩),
     internal_series_code := some (PyVal.str "S2"), payload := 2 }]

theorem group_by_partition_cover_witness :
    (∀ r ∈ groupItems,
      (∃ t, r.obs_time = some (PyVal.dt t)) ∧ seriesString r ≠ "") ∧
    ∃ g, group_by_partition groupItems = Except.ok g ∧
      (g.map Prod.fst).Nodup ∧
      (∀ kl ∈ g, kl.2 = groupItems.filter (inGroup kl.1)) ∧
      (∀ r ∈ groupItems, ∃ kl ∈ g, get_partition_path r = Except.ok kl.1) := by
  have hv : ∀ r ∈ groupItems,
      (∃ t, r.obs_time = some (PyVal.dt t)) ∧ seriesString r ≠ "" := by
    intro r hr
    fin_cases hr <;> exact ⟨⟨_, rfl⟩, by decide⟩
  exact ⟨hv, group_by_partition_cover groupItems hv⟩

/-- Character list of a version identifier: the letter v, the zero-padded
date and time fields, an underscore before the time and one before the
microseconds, exactly the strftime layout Y m d _ H M S _ f. -/
def versionChars (t : Ts) : List Char :=
  'v' :: (padChars 4 t.year ++ (padChars 2 t.month ++ (padChars 2 t.day ++
    ('_' :: (padChars 2 t.hour ++ (padChars 2 t.minute ++
    (padChars 2 t.second ++ ('_' :: padChars 6 t.micro))))))))

/-- Version id the version manager mints from a wall-clock reading. -/
def create_new_version (now : Ts) : String := String.mk (versionChars now)

/-- Field ranges a Python datetime value guarantees, relaxed to the widths
of the rendered fields. -/
def validTs (t : Ts) : Prop :=
  t.year < 10000 ∧ t.month < 100 ∧ t.day < 100 ∧ t.hour < 100 ∧
    t.minute < 100 ∧ t.second < 100 ∧ t.micro < 1000000

instance (t : Ts) : Decidable (validTs t) := by
  unfold validTs
  infer_instance

theorem peel_pad (w a b : Nat) (r1 r2 : List Char) (ha : a < 10 ^ w)
    (hb : b < 10 ^ w) (hw : 1 ≤ w)
    (h : padChars w a ++ r1 = padChars w b ++ r2) : a = b ∧ r1 = r2 := by
  have hl : (padChars w a).length = (padChars w b).length := by
    rw [padChars_length w a ha hw, padChars_length w b hb hw]
  obtain ⟨hp, hr⟩ := List.append_inj h hl
  exact ⟨padChars_inj w a b hp, hr⟩

theorem create_new_version_inj (t1 t2 : Ts) (h1 : validTs t1)
    (h2 : validTs t2)
    (heq : create_new_version t1 = create_new_version t2) : t1 = t2 := by
  obtain ⟨hy1, hmo1, hd1, hh1, hmi1, hs1, hu1⟩ := h1
  obtain ⟨hy2, hmo2, hd2, hh2, hmi2, hs2, hu2⟩ := h2
  have hchars : versionChars t1 = versionChars t2 := congrArg String.data heq
  simp only [versionChars, List.cons.injEq, true_and] at hchars
  obtain ⟨hy, hrest⟩ := peel_pad 4 _ _ _ _ hy1 hy2 (by omega) hchars
  obtain ⟨hmo, hrest⟩ := peel_pad 2 _ _ _ _ hmo1 hmo2 (by omega) hrest
  obtain ⟨hd, hrest⟩ := peel_pad 2 _ _ _ _ hd1 hd2 (by omega) hrest
  simp only [List.cons.injEq, true_and] at hrest
  obtain ⟨hh, hrest⟩ := peel_pad 2 _ _ _ _ hh1 hh2 (by omega) hrest
  obtain ⟨hmi, hrest⟩ := peel_pad 2 _ _ _ _ hmi1 hmi2 (by omega) hrest
  obtain ⟨hs, hrest⟩ := peel_pad 2 _ _ _ _ hs1 hs2 (by omega) hrest
  simp only [List.cons.injEq, true_and] at hrest
  have hu := padChars_inj 6 _ _ hrest
  cases t1
  cases t2
  simp_all

/-- C5 counterexample: the version id is a pure function of the wall-clock
reading, so two createVersion calls whose readings agree down to the
microsecond return the identical identifier, not two distinct ones; the
concrete reading shown renders as v20240115_143022_123456 both times. -/
theorem create_new_version_same_instant_counterexample :
    create_new_version ⟨2024, 1, 15, 14, 30, 22, 123456⟩ =
      create_new_version ⟨2024, 1, 15, 14, 30, 22, 123456⟩ ∧
    create_new_version ⟨2024, 1, 15, 14, 30, 22, 123456⟩ =
      "v20240115_143022_123456" :=
  ⟨rfl, by rfl⟩

/-- C5 (amended): uniqueness holds exactly at microsecond granularity: two
wall-clock readings that differ in any datetime field yield distinct
version identifiers, while identical readings yield the identical
identifier. -/
theorem create_new_version_distinct (t1 t2 : Ts) (h1 : validTs t1)
    (h2 : validTs t2) (hne : t1 ≠ t2) :
    create_new_version t1 ≠ create_new_version t2 := by
  intro heq
  exact hne (create_new_version_inj t1 t2 h1 h2 heq)

theorem create_new_version_distinct_witness :
    validTs ⟨2024, 1, 15, 14, 30, 22, 123456⟩ ∧
    validTs ⟨2024, 1, 15, 14, 30, 22, 123457⟩ ∧
    (⟨2024, 1, 15, 14, 30, 22, 123456⟩ : Ts) ≠
      ⟨2024, 1, 15, 14, 30, 22, 123457⟩ ∧
    create_new_version ⟨2024, 1, 15, 14, 30, 22, 123456⟩ ≠
      create_new_version ⟨2024, 1, 15, 14, 30, 22, 123457⟩ :=
  ⟨by decide, by decide, by decide,
    create_new_version_distinct _ _ (by decide) (by decide) (by decide)⟩

/-- Numeric encoding of a wall-clock reading, ordered like the
field-by-field datetime comparison on in-range values. -/
def tsKey (t : Ts) : Nat :=
  (((((t.year * 100 + t.month) * 100 + t.day) * 100 + t.hour) * 100 +
    t.minute) * 100 + t.second) * 1000000 + t.micro

/-- Constructor rank of a value, used to keep the comparison total. -/
def pyTag : PyVal → Nat
  | PyVal.none => 0
  | PyVal.str _ => 1
  | PyVal.int _ => 2
  | PyVal.dt _ => 3

/-- Total comparison on values that agrees with the Python comparison on
values of one shape, the only comparisons the pipeline performs; values of
different shapes are ranked by constructor to keep the sort total. -/
def pyValLeB (a b : PyVal) : Bool :=
  match a, b with
  | PyVal.str x, PyVal.str y => decide (x ≤ y)
  | PyVal.int x, PyVal.int y => decide (x ≤ y)
  | PyVal.dt x, PyVal.dt y => decide (tsKey x ≤ tsKey y)
  | PyVal.none, PyVal.none => true
  | x, y => decide (pyTag x ≤ pyTag y)

/-- Version manifest document, the JSON shape the manifest manager builds;
the date range fields are inlined, parquet file paths carry their
slash-split components. -/
structure ManifestDoc where
  version_id : String
  dataset_id : String
  created_at : String
  collection_date : Option String
  data_points_count : Nat
  series_count : Nat
  series_codes : List PyVal
  min_obs_time : Option String
  max_obs_time : Option String
  parquet_files : List (List String)
  partitions : List String
  partition_strategy : String
deriving DecidableEq, Repr

/-- Collection date of a manifest: the first record's collection date field
when the data is nonempty, rendered when truthy; a truthy value that is not
a datetime has no strftime and raises. -/
def renderCollectionDate (data : List Item) : Except PyErr (Option String) :=
  match data.head? with
  | Option.none => Except.ok Option.none
  | some dp =>
    match dp.collection_date.getD PyVal.none with
    | PyVal.dt t => Except.ok (some (strftimeZ t))
    | v => if pyTruthy v then Except.error PyErr.typeError
           else Except.ok Option.none

/-- Distinct series code values present in the records, sorted. -/
def collectSeriesCodes (data : List Item) : List PyVal :=
  List.insertionSort (fun a b => pyValLeB a b = true)
    (data.filterMap (fun dp =>
      match dp.internal_series_code.getD PyVal.none with
      | PyVal.none => Option.none
      | v => some v)).dedup

/-- Observation times of the records that carry a datetime value. -/
def collectObsTimes (data : List Item) : List Ts :=
  data.filterMap (fun dp =>
    match dp.obs_time.getD PyVal.none with
    | PyVal.dt t => some t
    | _ => Option.none)

/-- Smallest of a nonempty list of readings, absent for the empty list. -/
def minObs (l : List Ts) : Option Ts :=
  match l with
  | [] => Option.none
  | x :: xs => some (xs.foldl (fun a t => if tsKey t < tsKey a then t else a) x)

/-- Largest of a nonempty list of readings, absent for the empty list. -/
def maxObs (l : List Ts) : Option Ts :=
  match l with
  | [] => Option.none
  | x :: xs => some (xs.foldl (fun a t => if tsKey a < tsKey t then t else a) x)

/-- Manifest construction: pure aggregation of counts, sorted distinct
series codes, observation time range and echoed inputs. -/
def create_manifest (version_id dataset_id : String) (data : List Item)
    (parquet_files : List (List String)) (partitions : List String)
    (partition_strategy : String) (now : Ts) : Except PyErr ManifestDoc :=
  match renderCollectionDate data with
  | Except.error e => Except.error e
  | Except.ok cd =>
    Except.ok
      { version_id := version_id
        dataset_id := dataset_id
        created_at := strftimeZ now
        collection_date := cd
        data_points_count := data.length
        series_count := (collectSeriesCodes data).length
        series_codes := collectSeriesCodes data
        min_obs_time := (minObs (collectObsTimes data)).map strftimeZ
        max_obs_time := (maxObs (collectObsTimes data)).map strftimeZ
        parquet_files := parquet_files
        partitions := partitions
        partition_strategy := partition_strategy }

/-- C9: createManifest on an empty record list raises no error and yields
a manifest with zero data points, zero series, an empty series code list,
both ends of the observation range absent, and an absent collection
date. -/
theorem create_manifest_empty (version_id dataset_id : String)
    (files : List (List String)) (parts : List String)
    (strategy : String) (now : Ts) :
    ∃ m, create_manifest version_id dataset_id [] files parts strategy now =
        Except.ok m ∧
      m.data_points_count = 0 ∧ m.series_count = 0 ∧ m.series_codes = [] ∧
      m.min_obs_time = Option.none ∧ m.max_obs_time = Option.none ∧
      m.collection_date = Option.none :=
  ⟨_, rfl, rfl, rfl, rfl, rfl, rfl, rfl⟩

/-- Projection manifest document, the per-dataset record of folded
versions. -/
structure ProjManifestDoc where
  projected_versions : List String
  last_projection_date : Option String
  last_projected_version : Option String
deriving DecidableEq, Repr

/-- Stored object, modelled structurally: a partition records document, a
version manifest, a projection manifest, or an opaque blob.  The Python
code stores these as JSON bytes; a stored document of an unexpected shape
makes the readers raise, which the store operations surface as a type
error. -/
inductive Val where
  | records (l : List Item)
  | manifest (m : ManifestDoc)
  | projManifest (m : ProjManifestDoc)
  | raw (n : Nat)
deriving DecidableEq, Repr

/-- Object-store key as its slash-split path components. -/
abbrev Key := List String

/-- Object store: association list from keys to stored objects, first
binding wins; the operations keep keys distinct. -/
abbrev Store := List (Key × Val)

/-- Read an object: value at the key, absent when the key is unbound. -/
def lookupStore (S : Store) (k : Key) : Option Val :=
  match S with
  | [] => Option.none
  | kv :: rest => if kv.1 == k then some kv.2 else lookupStore rest k

/-- Write an object: replace in place when the key exists, append
otherwise. -/
def setStore (S : Store) (k : Key) (v : Val) : Store :=
  match S with
  | [] => [(k, v)]
  | kv :: rest => if kv.1 == k then (k, v) :: rest else kv :: setStore rest k v

/-- Delete one object. -/
def delStore (S : Store) (k : Key) : Store :=
  match S with
  | [] => []
  | kv :: rest => if kv.1 == k then delStore rest k else kv :: delStore rest k

/-- Delete a list of objects. -/
def delFiles (S : Store) (ks : List Key) : Store := ks.foldl delStore S

/-- Keys under a prefix, in store order, as a paginated list by prefix
returns them. -/
def listKeys (S : Store) (pfx : Key) : List Key :=
  (S.map Prod.fst).filter (fun k => pfx.isPrefixOf k)

theorem lookup_setStore_self (S : Store) (k : Key) (v : Val) :
    lookupStore (setStore S k v) k = some v := by
  induction S with
  | nil => simp [setStore, lookupStore]
  | cons kv rest ih =>
    simp only [setStore]
    by_cases hk : (kv.1 == k) = true
    · rw [if_pos hk]
      simp [lookupStore]
    · rw [if_neg hk]
      simp only [lookupStore, if_neg hk]
      exact ih

theorem lookup_setStore_ne (S : Store) (k k2 : Key) (v : Val) (h : k2 ≠ k) :
    lookupStore (setStore S k v) k2 = lookupStore S k2 := by
  induction S with
  | nil =>
    simp only [setStore, lookupStore]
    rw [if_neg (fun hc => h (eq_of_beq hc).symm)]
  | cons kv rest ih =>
    simp only [setStore]
    by_cases hk : (kv.1 == k) = true
    · rw [if_pos hk]
      have hkv : kv.1 = k := by simpa using hk
      simp only [lookupStore]
      rw [if_neg (fun hc => h (eq_of_beq hc).symm),
        if_neg (fun hc => h (hkv.symm.trans (eq_of_beq hc)).symm)]
    · rw [if_neg hk]
      simp only [lookupStore]
      by_cases hk2 : (kv.1 == k2) = true
      · rw [if_pos hk2, if_pos hk2]
      · rw [if_neg hk2, if_neg hk2]
        exact ih

theorem lookup_delStore (S : Store) (k k2 : Key) :
    lookupStore (delStore S k) k2 =
      if k2 = k then Option.none else lookupStore S k2 := by
  induction S with
  | nil => simp [delStore, lookupStore]
  | cons kv rest ih =>
    simp only [delStore]
    by_cases hk : (kv.1 == k) = true
    · rw [if_pos hk]
      have hkv : kv.1 = k := by simpa using hk
      rw [ih]
      by_cases hk2 : k2 = k
      · rw [if_pos hk2, if_pos hk2]
      · rw [if_neg hk2, if_neg hk2]
        simp only [lookupStore]
        rw [if_neg (fun hc => hk2 (hkv.symm.trans (eq_of_beq hc)).symm)]
    · rw [if_neg hk]
      simp only [lookupStore]
      by_cases hk2 : (kv.1 == k2) = true
      · rw [if_pos hk2]
        have hkv2 : kv.1 = k2 := by simpa using hk2
        have hne : k2 ≠ k := by
          intro he
          exact hk (by simp [hkv2, he])
        rw [if_neg hne]
        simp only [lookupStore, if_pos hk2]
      · rw [if_neg hk2, ih]
        by_cases hke : k2 = k
        · rw [if_pos hke, if_pos hke]
        · rw [if_neg hke, if_neg hke]
          simp only [lookupStore, if_neg hk2]

theorem lookup_delFiles (S : Store) (ks : List Key) (k : Key) :
    lookupStore (delFiles S ks) k =
      if k ∈ ks then Option.none else lookupStore S k := by
  induction ks generalizing S with
  | nil => simp [delFiles]
  | cons k0 rest ih =>
    show lookupStore (delFiles (delStore S k0) rest) k = _
    rw [ih, lookup_delStore]
    by_cases hmem : k ∈ rest
    · rw [if_pos hmem, if_pos (List.mem_cons_of_mem _ hmem)]
    · rw [if_neg hmem]
      by_cases hk0 : k = k0
      · rw [if_pos hk0, if_pos (List.mem_cons.mpr (Or.inl hk0))]
      · rw [if_neg hk0, if_neg (by
          intro hc
          rcases List.mem_cons.mp hc with h | h
          · exact hk0 h
          · exact hmem h)]

theorem lookup_of_mem_keys (S : Store) (k : Key) (h : k ∈ S.map Prod.fst) :
    ∃ v, lookupStore S k = some v := by
  induction S with
  | nil => simp at h
  | cons kv rest ih =>
    by_cases hk : (kv.1 == k) = true
    · exact ⟨kv.2, by simp only [lookupStore, if_pos hk]⟩
    · have hmem : k ∈ rest.map Prod.fst := by
        simp only [List.map_cons, List.mem_cons] at h
        rcases h with h | h
        · exact absurd (by simp [h]) hk
        · exact h
      obtain ⟨v, hv⟩ := ih hmem
      exact ⟨v, by simp only [lookupStore, if_neg hk]; exact hv⟩

theorem mem_listKeys (S : Store) (pfx k : Key) :
    k ∈ listKeys S pfx ↔
      k ∈ S.map Prod.fst ∧ (pfx.isPrefixOf k) = true :=
  List.mem_filter

/-- Staging namespace of a dataset. -/
def stagingPfx (d : String) : Key := ["datasets", d, "staging"]

/-- Projections namespace of a dataset. -/
def projectionsPfx (d : String) : Key := ["datasets", d, "projections"]

/-- Address of a version manifest. -/
def versionManifestKey (d v : String) : Key :=
  ["datasets", d, "versions", v, "manifest.json"]

/-- Address of a data file inside a version. -/
def versionDataKey (d v : String) (f : List String) : Key :=
  ["datasets", d, "versions", v, "data"] ++ f

/-- Address of a file inside staging. -/
def stagingFileKey (d : String) (f : List String) : Key := stagingPfx d ++ f

/-- Address of the projection manifest of a dataset. -/
def projManifestKey (d : String) : Key :=
  ["datasets", d, "projections", "manifest.json"]

/-- Address of the records document of a partition inside staging. -/
def stagingPartFileKey (d : String) (p : List String) : Key :=
  stagingPfx d ++ p ++ ["data.json"]

/-- Address of the records document of a partition inside the
projection. -/
def projPartFileKey (d : String) (p : List String) : Key :=
  projectionsPfx d ++ p ++ ["data.json"]

/-- Join path components back into the slash string the Python code
manipulates, used only to order partition lists the way sorted does. -/
def joinSlash (p : List String) : String := String.intercalate "/" p

/-- Staging manager: delete everything under the staging namespace. -/
def clear_staging (S : Store) (d : String) : Store :=
  delFiles S (listKeys S (stagingPfx d))

/-- Staging manager: copy each listed file of a version into staging at
the same relative path, failing when a source object is missing; the
worker pool defaults to one, so the copies run in order. -/
def copy_from_version (S : Store) (v d : String) (files : List (List String)) :
    Store × Except PyErr Unit :=
  match files with
  | [] => (S, Except.ok ())
  | f :: fs =>
    match lookupStore S (versionDataKey d v f) with
    | Option.none => (S, Except.error PyErr.clientError)
    | some val => copy_from_version (setStore S (stagingFileKey d f) val) v d fs

/-- Staging manager: the distinct partition paths present in staging, each
a staged key relative to the staging namespace with its file name dropped,
empty ones skipped, sorted by their joined string form. -/
def list_staging_partitions (S : Store) (d : String) : List (List String) :=
  List.insertionSort (fun a b => joinSlash a ≤ joinSlash b)
    ((((listKeys S (stagingPfx d)).map
        (fun k => (k.drop (stagingPfx d).length).dropLast)).filter
      (fun p => p ≠ [])).dedup)

/-- Merger: read a partition records document, absent when the key is
unbound; a stored object of another shape fails the JSON shape the reader
expects. -/
def downloadRecords (S : Store) (k : Key) : Except PyErr (Option (List Item)) :=
  match lookupStore S k with
  | Option.none => Except.ok Option.none
  | some (Val.records l) => Except.ok (some l)
  | some _ => Except.error PyErr.typeError

/-- Merger: merge one partition of staging with the projection and write
the merged document back into staging when it is nonempty. -/
def merge_partition (S : Store) (d : String) (p : List String) :
    Store × Except PyErr Unit :=
  match downloadRecords S (stagingPartFileKey d p) with
  | Except.error e => (S, Except.error e)
  | Except.ok staging_data =>
    match downloadRecords S (projPartFileKey d p) with
    | Except.error e => (S, Except.error e)
    | Except.ok projections_data =>
      match merge_json_data projections_data staging_data with
      | [] => (S, Except.ok ())
      | merged =>
        (setStore S (stagingPartFileKey d p) (Val.records merged),
          Except.ok ())

/-- Merger: merge the listed partitions in order; the first failure aborts
the batch and is re-raised. -/
def merge_partitions_go (S : Store) (d : String) (ps : List (List String)) :
    Store × Except PyErr Unit :=
  match ps with
  | [] => (S, Except.ok ())
  | p :: rest =>
    match merge_partition S d p with
    | (S1, Except.error e) => (S1, Except.error e)
    | (S1, Except.ok _) => merge_partitions_go S1 d rest

/-- Merger: merge every partition present in staging. -/
def merge_all_partitions (S : Store) (d : String) : Store × Except PyErr Unit :=
  merge_partitions_go S d (list_staging_partitions S d)

/-- Atomic mover copy loop: copy each staging object to its projection
address, accumulating the copied projection keys; when a copy raises (the
injected failure point counts down, and a missing source also raises)
delete every copied object and re-raise. -/
def moverCopyLoop (d : String) (S : Store) (files : List Key)
    (failAt : Option Nat) (copied : List Key) :
    Store × Except PyErr (List Key) :=
  match files with
  | [] => (S, Except.ok copied)
  | kf :: ks =>
    if failAt = some 0 then
      (delFiles S copied, Except.error PyErr.clientError)
    else
      match lookupStore S kf with
      | Option.none => (delFiles S copied, Except.error PyErr.clientError)
      | some v =>
        moverCopyLoop d
          (setStore S (projectionsPfx d ++ kf.drop (stagingPfx d).length) v)
          ks (failAt.map (fun n => n - 1))
          (copied ++ [projectionsPfx d ++ kf.drop (stagingPfx d).length])

/-- Atomic mover: list the staging objects (no-op when none), copy all of
them into the projection namespace, then delete the staging objects; a
failed copy rolls back the copied objects and re-raises.  The failAt
argument injects a failure into the n-th copy; the code under test has no
injection point, so the none case is the unmodified behaviour. -/
def move_staging_to_projections (S : Store) (d : String)
    (failAt : Option Nat) : Store × Except PyErr Unit :=
  if (listKeys S (stagingPfx d)).isEmpty then (S, Except.ok ())
  else
    match moverCopyLoop d S (listKeys S (stagingPfx d)) failAt [] with
    | (S1, Except.error e) => (S1, Except.error e)
    | (S1, Except.ok _) =>
      (delFiles S1 (listKeys S (stagingPfx d)), Except.ok ())

/-- Projection manifest manager: whether a version is recorded as
projected; an absent manifest reads as false. -/
def is_version_projected (S : Store) (d v : String) : Bool :=
  match lookupStore S (projManifestKey d) with
  | some (Val.projManifest m) => m.projected_versions.contains v
  | _ => false

/-- Projection manifest manager: load or create the manifest, append the
version when absent, stamp the fold time and last version, persist; a
stored manifest of an unexpected shape fails its readers. -/
def add_projected_version (S : Store) (d v : String) (nowStr : String) :
    Store × Except PyErr Unit :=
  match lookupStore S (projManifestKey d) with
  | some (Val.projManifest m) =>
    (setStore S (projManifestKey d)
      (Val.projManifest
        ⟨if m.projected_versions.contains v then m.projected_versions
          else m.projected_versions ++ [v], some nowStr, some v⟩),
      Except.ok ())
  | Option.none =>
    (setStore S (projManifestKey d)
      (Val.projManifest ⟨[v], some nowStr, some v⟩),
      Except.ok ())
  | some _ => (S, Except.error PyErr.typeError)

/-- Manifest manager: load a version manifest, absent when the address is
unbound. -/
def load_manifest (S : Store) (d v : String) :
    Except PyErr (Option ManifestDoc) :=
  match lookupStore S (versionManifestKey d v) with
  | Option.none => Except.ok Option.none
  | some (Val.manifest m) => Except.ok (some m)
  | some _ => Except.error PyErr.typeError

/-- Projection manager: the orchestrated fold of one version into the
projection: idempotency guard, manifest load (ValueError when absent),
empty-manifest no-op, clear staging, copy to staging, merge, atomic move,
record the version.  Returns true when new data was written. -/
def project_version (S : Store) (version_id dataset_id : String)
    (nowStr : String) : Store × Except PyErr Bool :=
  if is_version_projected S dataset_id version_id then (S, Except.ok false)
  else
    match load_manifest S dataset_id version_id with
    | Except.error e => (S, Except.error e)
    | Except.ok Option.none => (S, Except.error PyErr.valueError)
    | Except.ok (some m) =>
      if m.parquet_files.isEmpty then (S, Except.ok false)
      else
        match copy_from_version (clear_staging S dataset_id) version_id
            dataset_id m.parquet_files with
        | (S2, Except.error e) => (S2, Except.error e)
        | (S2, Except.ok _) =>
          match merge_all_partitions S2 dataset_id with
          | (S3, Except.error e) => (S3, Except.error e)
          | (S3, Except.ok _) =>
            match move_staging_to_projections S3 dataset_id Option.none with
            | (S4, Except.error e) => (S4, Except.error e)
            | (S4, Except.ok _) =>
              match add_projected_version S4 dataset_id version_id nowStr with
              | (S5, Except.error e) => (S5, Except.error e)
              | (S5, Except.ok _) => (S5, Except.ok true)

/-- C10: for every version whose manifest exists but lists no parquet
files, and which the projection manifest does not record, project_version
returns false with the store unchanged: staging is not cleared, nothing is
copied, merged or moved, the projection manifest does not record the
version, and every subsequent call repeats the manifest load rather than
being skipped by the idempotency guard. -/
theorem project_version_empty_manifest (S : Store) (v d : String)
    (m : ManifestDoc)
    (hskip : is_version_projected S d v = false)
    (hload : load_manifest S d v = Except.ok (some m))
    (hempty : m.parquet_files = []) :
    ∀ nowStr, project_version S v d nowStr = (S, Except.ok false) := by
  intro nowStr
  unfold project_version
  rw [hskip, hload]
  simp [hempty]

/-- Version manifest with an empty file list, for the no-file scenario. -/
def emptyFilesManifest : ManifestDoc :=
  ⟨"v1", "d", "t", Option.none, 0, 0, [], Option.none, Option.none, [], [],
    "series_year_month"⟩

/-- Store holding only the empty-file-list manifest of version v1. -/
def emptyFilesStore : Store :=
  [(versionManifestKey "d" "v1", Val.manifest emptyFilesManifest)]

theorem project_version_empty_manifest_witness :
    is_version_projected emptyFilesStore "d" "v1" = false ∧
    load_manifest emptyFilesStore "d" "v1" =
      Except.ok (some emptyFilesManifest) ∧
    emptyFilesManifest.parquet_files = [] ∧
    ∀ nowStr, project_version emptyFilesStore "v1" "d" nowStr =
      (emptyFilesStore, Except.ok false) :=
  ⟨rfl, rfl, rfl,
    project_version_empty_manifest emptyFilesStore "v1" "d" emptyFilesManifest
      rfl rfl rfl⟩

theorem add_projected_version_records (S : Store) (d v nowStr : String)
    (S' : Store) (u : Unit)
    (h : add_projected_version S d v nowStr = (S', Except.ok u)) :
    is_version_projected S' d v = true := by
  unfold add_projected_version at h
  split at h
  · next m _ =>
    have hS : S' = setStore S (projManifestKey d)
        (Val.projManifest
          ⟨if m.projected_versions.contains v then m.projected_versions
            else m.projected_versions ++ [v], some nowStr, some v⟩) := by
      injection h with h1 h2
      exact h1.symm
    unfold is_version_projected
    rw [hS, lookup_setStore_self]
    by_cases hc : m.projected_versions.contains v = true
    · rw [if_pos hc]
      exact hc
    · rw [if_neg hc]
      simp
  · have hS : S' = setStore S (projManifestKey d)
        (Val.projManifest ⟨[v], some nowStr, some v⟩) := by
      injection h with h1 h2
      exact h1.symm
    unfold is_version_projected
    rw [hS, lookup_setStore_self]
    simp
  · simp at h

/-- C2: after one successful fold of a version the projection manifest
reports the version as projected, and any second call for the same dataset
and version is a guard-skip no-op: it returns false, leaves the store (and
hence staging, every merged partition and the whole projection) exactly as
the first fold left it, so folding the version twice yields the same
merged partition content as folding it once. -/
theorem project_version_idempotent (S : Store) (v d nowStr : String)
    (S1 : Store)
    (h : project_version S v d nowStr = (S1, Except.ok true)) :
    is_version_projected S1 d v = true ∧
    (∀ nowStr2, project_version S1 v d nowStr2 = (S1, Except.ok false)) := by
  have hivp : is_version_projected S1 d v = true := by
    unfold project_version at h
    split at h
    · simp at h
    · split at h
      · simp at h
      · simp at h
      · split at h
        · simp at h
        · split at h
          · simp at h
          · split at h
            · simp at h
            · split at h
              · simp at h
              · split at h
                · simp at h
                · next S5 u hadd =>
                  have hS : S1 = S5 := by
                    injection h with h1 h2
                    exact h1.symm
                  rw [hS]
                  exact add_projected_version_records _ _ _ _ _ _ hadd
  refine ⟨hivp, ?_⟩
  intro nowStr2
  unfold project_version
  rw [hivp]
  simp

/-- Record staged by the witness fold. -/
def foldItem : Item :=
  { obs_time := some (PyVal.dt ⟨2024, 1, 15, 0, 0, 0, 0⟩),
    internal_series_code := some (PyVal.str "S1") }

/-- Version manifest of the witness fold: one staged data file. -/
def foldManifest : ManifestDoc :=
  ⟨"v1", "d", "t", Option.none, 1, 1, [PyVal.str "S1"], Option.none,
    Option.none, [["S1", "year=2024", "month=01", "data.json"]],
    ["S1/year=2024/month=01/"], "series_year_month"⟩

/-- Store of the witness fold: the version manifest and its data file. -/
def foldStore : Store :=
  [(versionManifestKey "d" "v1", Val.manifest foldManifest),
   (versionDataKey "d" "v1" ["S1", "year=2024", "month=01", "data.json"],
     Val.records [foldItem])]

theorem project_version_idempotent_witness :
    project_version foldStore "v1" "d" "now" =
      ((project_version foldStore "v1" "d" "now").1, Except.ok true) ∧
    (is_version_projected (project_version foldStore "v1" "d" "now").1
        "d" "v1" = true ∧
      ∀ nowStr2,
        project_version (project_version foldStore "v1" "d" "now").1 "v1" "d"
            nowStr2 =
          ((project_version foldStore "v1" "d" "now").1, Except.ok false)) :=
  ⟨by rfl,
    project_version_idempotent foldStore "v1" "d" "now" _ (by rfl)⟩

theorem staging_append_ne_pm (d : String) (rest : List String) :
    stagingPfx d ++ rest ≠ projManifestKey d := by
  intro h
  simp only [stagingPfx, projManifestKey, List.cons_append, List.nil_append,
    List.cons.injEq] at h
  exact absurd h.2.2.1 (by decide)

theorem pm_not_in_staging_list (S : Store) (d : String) :
    projManifestKey d ∉ listKeys S (stagingPfx d) := by
  intro hmem
  have hpfx := ((mem_listKeys S (stagingPfx d) (projManifestKey d)).mp hmem).2
  obtain ⟨t, ht⟩ := List.isPrefixOf_iff_prefix.mp hpfx
  exact staging_append_ne_pm d t ht

theorem lookup_pm_clear_staging (S : Store) (d : String) :
    lookupStore (clear_staging S d) (projManifestKey d) =
      lookupStore S (projManifestKey d) := by
  unfold clear_staging
  rw [lookup_delFiles, if_neg (pm_not_in_staging_list S d)]

theorem lookup_pm_copy (d v : String) (files : List (List String)) :
    ∀ S S' r, copy_from_version S v d files = (S', r) →
      lookupStore S' (projManifestKey d) =
        lookupStore S (projManifestKey d) := by
  induction files with
  | nil =>
    intro S S' r h
    unfold copy_from_version at h
    injection h with h1 h2
    rw [h1]
  | cons f fs ih =>
    intro S S' r h
    unfold copy_from_version at h
    split at h
    · injection h with h1 h2
      rw [h1]
    · next val hval =>
      have := ih _ _ _ h
      rw [this, lookup_setStore_ne]
      exact fun he => staging_append_ne_pm d f he.symm

theorem lookup_pm_merge_partition (S : Store) (d : String) (p : List String)
    (S' : Store) (r : Except PyErr Unit) (h : merge_partition S d p = (S', r)) :
    lookupStore S' (projManifestKey d) =
      lookupStore S (projManifestKey d) := by
  unfold merge_partition at h
  split at h
  · injection h with h1 h2
    rw [h1]
  · split at h
    · injection h with h1 h2
      rw [h1]
    · split at h
      · injection h with h1 h2
        rw [h1]
      · injection h with h1 h2
        rw [h1.symm, lookup_setStore_ne]
        intro he
        apply staging_append_ne_pm d (p ++ ["data.json"])
        rw [← List.append_assoc]
        exact he.symm

theorem lookup_pm_merge_go (d : String) (ps : List (List String)) :
    ∀ S S' r, merge_partitions_go S d ps = (S', r) →
      lookupStore S' (projManifestKey d) =
        lookupStore S (projManifestKey d) := by
  induction ps with
  | nil =>
    intro S S' r h
    injection h with h1 h2
    rw [h1]
  | cons p rest ih =>
    intro S S' r h
    unfold merge_partitions_go at h
    split at h
    · next S1 e hmerge =>
      injection h with h1 h2
      rw [← h1]
      exact lookup_pm_merge_partition _ _ _ _ _ hmerge
    · next S1 u hmerge =>
      rw [ih _ _ _ h]
      exact lookup_pm_merge_partition _ _ _ _ _ hmerge

theorem moverCopyLoop_error_lookup (d : String) (files : List Key) :
    ∀ S copied failAt S' e (S0 : Store),
      (∀ k, lookupStore S k = lookupStore S0 k ∨ k ∈ copied) →
      moverCopyLoop d S files failAt copied = (S', Except.error e) →
      ∀ k, lookupStore S' k = Option.none ∨
        lookupStore S' k = lookupStore S0 k := by
  induction files with
  | nil =>
    intro S copied failAt S' e S0 hinv h
    simp [moverCopyLoop] at h
  | cons kf ks ih =>
    intro S copied failAt S' e S0 hinv h k
    unfold moverCopyLoop at h
    split at h
    · injection h with h1 h2
      rw [← h1, lookup_delFiles]
      split
      · exact Or.inl rfl
      · next hcop =>
        rcases hinv k with hl | hr
        · exact Or.inr hl
        · exact absurd hr hcop
    · split at h
      · injection h with h1 h2
        rw [← h1, lookup_delFiles]
        split
        · exact Or.inl rfl
        · next hcop =>
          rcases hinv k with hl | hr
          · exact Or.inr hl
          · exact absurd hr hcop
      · next val hval =>
        refine ih _ _ _ _ _ S0 ?_ h k
        intro k2
        by_cases hk2 : k2 = projectionsPfx d ++ kf.drop (stagingPfx d).length
        · exact Or.inr (by simp [hk2])
        · rw [lookup_setStore_ne _ _ _ _ hk2]
          rcases hinv k2 with hl | hr
          · exact Or.inl hl
          · exact Or.inr (List.mem_append.mpr (Or.inl hr))

theorem move_error_lookup (S : Store) (d : String) (failAt : Option Nat)
    (S' : Store) (e : PyErr)
    (h : move_staging_to_projections S d failAt = (S', Except.error e)) :
    ∀ k, lookupStore S' k = Option.none ∨
      lookupStore S' k = lookupStore S k := by
  unfold move_staging_to_projections at h
  split at h
  · simp at h
  · split at h
    · next S1 e1 hloop =>
      injection h with h1 h2
      rw [← h1]
      exact moverCopyLoop_error_lookup d _ _ _ _ _ _ S
        (fun k => Or.inl rfl) hloop
    · simp at h

theorem ivp_congr (S1 S2 : Store) (d v : String)
    (h : lookupStore S1 (projManifestKey d) =
      lookupStore S2 (projManifestKey d)) :
    is_version_projected S1 d v = is_version_projected S2 d v := by
  unfold is_version_projected
  rw [h]

theorem ivp_none (S : Store) (d v : String)
    (h : lookupStore S (projManifestKey d) = Option.none) :
    is_version_projected S d v = false := by
  unfold is_version_projected
  rw [h]

theorem add_projected_version_error (S : Store) (d v nowStr : String)
    (S' : Store) (e : PyErr)
    (h : add_projected_version S d v nowStr = (S', Except.error e)) :
    S' = S ∧ is_version_projected S d v = false := by
  unfold add_projected_version at h
  split at h
  · simp at h
  · simp at h
  · next val hne1 hne2 =>
    injection h with h1 h2
    refine ⟨h1.symm, ?_⟩
    unfold is_version_projected
    split
    · next m hm =>
      rw [hne2] at hm
      exact absurd (Option.some.inj hm) (fun he => hne1 m he)
    · rfl

/-- C4: whenever project_version raises (manifest load, staging clear,
copy to staging, any partition merge, the atomic move, or even the final
manifest write), the error reaches the caller and the store it leaves
behind has a projection manifest that does not record the version: a
failed fold is never recorded as projected. -/
theorem projection_manifest_only_after_publish (S : Store)
    (v d nowStr : String) (S1 : Store) (e : PyErr)
    (h : project_version S v d nowStr = (S1, Except.error e)) :
    is_version_projected S1 d v = false := by
  unfold project_version at h
  split at h
  · simp at h
  · next hguard =>
    have hg : is_version_projected S d v = false := by
      rwa [Bool.not_eq_true] at hguard
    split at h
    · injection h with h1 h2
      rw [← h1]
      exact hg
    · injection h with h1 h2
      rw [← h1]
      exact hg
    · split at h
      · simp at h
      · split at h
        · next S2 e2 hcopy =>
          injection h with h1 h2
          rw [← h1]
          rw [ivp_congr S2 S d v
            (by rw [lookup_pm_copy d v _ _ _ _ hcopy, lookup_pm_clear_staging])]
          exact hg
        · next S2 u2 hcopy =>
          have hpm2 : lookupStore S2 (projManifestKey d) =
              lookupStore S (projManifestKey d) := by
            rw [lookup_pm_copy d v _ _ _ _ hcopy, lookup_pm_clear_staging]
          split at h
          · next S3 e3 hmerge =>
            injection h with h1 h2
            rw [← h1]
            rw [ivp_congr S3 S d v
              (by rw [lookup_pm_merge_go d _ _ _ _ hmerge, hpm2])]
            exact hg
          · next S3 u3 hmerge =>
            have hpm3 : lookupStore S3 (projManifestKey d) =
                lookupStore S (projManifestKey d) := by
              rw [lookup_pm_merge_go d _ _ _ _ hmerge, hpm2]
            split at h
            · next S4 e4 hmove =>
              injection h with h1 h2
              rw [← h1]
              rcases move_error_lookup S3 d Option.none S4 e4 hmove
                  (projManifestKey d) with hnone | hsame
              · exact ivp_none S4 d v hnone
              · rw [ivp_congr S4 S d v (by rw [hsame, hpm3])]
                exact hg
            · next S4 u4 hmove =>
              split at h
              · next S5 e5 hadd =>
                injection h with h1 h2
                rw [← h1]
                obtain ⟨hS5, hivp4⟩ :=
                  add_projected_version_error S4 d v nowStr S5 e5 hadd
                rw [hS5]
                exact hivp4
              · simp at h

theorem projection_manifest_only_after_publish_witness :
    project_version ([] : Store) "v1" "d" "n" =
      (([] : Store), Except.error PyErr.valueError) ∧
    is_version_projected ([] : Store) "d" "v1" = false :=
  ⟨by rfl,
    projection_manifest_only_after_publish [] "v1" "d" "n" []
      PyErr.valueError (by rfl)⟩

theorem proj_append_ne_staging_append (d : String) (r1 r2 : List String) :
    projectionsPfx d ++ r2 ≠ stagingPfx d ++ r1 := by
  intro h
  simp only [projectionsPfx, stagingPfx, List.cons_append, List.nil_append,
    List.cons.injEq] at h
  exact absurd h.2.2.1 (by decide)

theorem moverCopyLoop_rollback (d : String) (S : Store) :
    ∀ (files : List Key) (Sacc : Store) (copied : List Key) (n : Nat),
      (∀ kf ∈ files, kf ∈ listKeys S (stagingPfx d)) →
      (∀ k, k ∉ copied → lookupStore Sacc k = lookupStore S k) →
      (∀ k ∈ copied, lookupStore S k = Option.none) →
      (∀ c ∈ copied, ∃ r, c = projectionsPfx d ++ r) →
      (∀ kf ∈ listKeys S (stagingPfx d),
        lookupStore S (projectionsPfx d ++ kf.drop (stagingPfx d).length) =
          Option.none) →
      n < files.length →
      ∃ S', moverCopyLoop d Sacc files (some n) copied =
          (S', Except.error PyErr.clientError) ∧
        ∀ k, lookupStore S' k = lookupStore S k := by
  intro files
  induction files with
  | nil =>
    intro Sacc copied n _ _ _ _ _ hn
    simp at hn
  | cons kf ks ih =>
    intro Sacc copied n hfs hinv1 hinv2 hcshape habsent hn
    match n with
    | 0 =>
      refine ⟨delFiles Sacc copied, ?_, ?_⟩
      · unfold moverCopyLoop
        rw [if_pos rfl]
      · intro k
        rw [lookup_delFiles]
        by_cases hc : k ∈ copied
        · rw [if_pos hc, hinv2 k hc]
        · rw [if_neg hc]
          exact hinv1 k hc
    | n + 1 =>
      have hkf : kf ∈ listKeys S (stagingPfx d) := hfs kf (by simp)
      have hkfnc : kf ∉ copied := by
        intro hc
        obtain ⟨r, hr⟩ := hcshape kf hc
        have hpfx := ((mem_listKeys S _ kf).mp hkf).2
        obtain ⟨t, ht⟩ := List.isPrefixOf_iff_prefix.mp hpfx
        exact proj_append_ne_staging_append d t r (hr.symm.trans ht.symm)
      have hmemk := ((mem_listKeys S _ kf).mp hkf).1
      obtain ⟨v, hv⟩ := lookup_of_mem_keys S kf hmemk
      have hvacc : lookupStore Sacc kf = some v := by
        rw [hinv1 kf hkfnc]
        exact hv
      have hstep : moverCopyLoop d Sacc (kf :: ks) (some (n + 1)) copied =
          moverCopyLoop d
            (setStore Sacc (projectionsPfx d ++ kf.drop (stagingPfx d).length) v)
            ks (some n)
            (copied ++ [projectionsPfx d ++ kf.drop (stagingPfx d).length]) := by
        simp only [moverCopyLoop]
        rw [if_neg (by simp), hvacc]
        rfl
      obtain ⟨S', hrun, hlook⟩ := ih
        (setStore Sacc (projectionsPfx d ++ kf.drop (stagingPfx d).length) v)
        (copied ++ [projectionsPfx d ++ kf.drop (stagingPfx d).length]) n
        (fun k hk => hfs k (by simp [hk]))
        (by
          intro k hk
          have hk1 : k ∉ copied := fun hc => hk (List.mem_append.mpr (Or.inl hc))
          have hk2 : k ≠ projectionsPfx d ++ kf.drop (stagingPfx d).length :=
            fun hc => hk (List.mem_append.mpr (Or.inr (by simp [hc])))
          rw [lookup_setStore_ne _ _ _ _ hk2]
          exact hinv1 k hk1)
        (by
          intro k hk
          rcases List.mem_append.mp hk with hc | hc
          · exact hinv2 k hc
          · simp only [List.mem_singleton] at hc
            rw [hc]
            exact habsent kf hkf)
        (by
          intro c hc
          rcases List.mem_append.mp hc with hcc | hcc
          · exact hcshape c hcc
          · simp only [List.mem_singleton] at hcc
            exact ⟨_, hcc⟩)
        habsent (by simpa using hn)
      exact ⟨S', hstep ▸ hrun, hlook⟩

/-- C1 (amended): when the (N+1)-st copy of the atomic move fails after N
successful copies, the error is re-raised, every copied projection object
is deleted and every staging object is untouched; provided none of the
destination projection addresses of the staging files held an object
before the call, the whole store (in particular the projection namespace)
reads exactly as it did before the call.  The proviso is forced by the
counterexample: rollback deletes a copied destination outright instead of
restoring the object that was overwritten there. -/
theorem atomic_mover_rollback (S : Store) (d : String) (n : Nat)
    (hn : n < (listKeys S (stagingPfx d)).length)
    (habsent : ∀ kf ∈ listKeys S (stagingPfx d),
      lookupStore S (projectionsPfx d ++ kf.drop (stagingPfx d).length) =
        Option.none) :
    ∃ S', move_staging_to_projections S d (some n) =
        (S', Except.error PyErr.clientError) ∧
      ∀ k, lookupStore S' k = lookupStore S k := by
  obtain ⟨S', hrun, hlook⟩ := moverCopyLoop_rollback d S
    (listKeys S (stagingPfx d)) S [] n (fun kf h => h) (fun k _ => rfl)
    (by simp) (by simp) habsent hn
  refine ⟨S', ?_, hlook⟩
  unfold move_staging_to_projections
  rw [if_neg (by
    intro hh
    rw [List.isEmpty_iff] at hh
    rw [hh] at hn
    simp at hn)]
  rw [hrun]

/-- Store of the rollback counterexample: two staged objects and a
projection object already present at the destination address of the first
staged object. -/
def overwriteStore : Store :=
  [(["datasets", "ds", "staging", "a"], Val.raw 1),
   (["datasets", "ds", "staging", "b"], Val.raw 2),
   (["datasets", "ds", "projections", "a"], Val.raw 7)]

/-- C1 counterexample: with two staging files and the second copy failing
(N = 1 of M = 2), the first copy overwrites the pre-existing projection
object at datasets/ds/projections/a, and the rollback then deletes that
key outright; after the call the error was re-raised but the projection
namespace no longer holds the object (value 7) it held before the call,
so it is not exactly as it was. -/
theorem atomic_mover_rollback_counterexample :
    lookupStore overwriteStore ["datasets", "ds", "projections", "a"] =
      some (Val.raw 7) ∧
    (move_staging_to_projections overwriteStore "ds" (some 1)).2 =
      Except.error PyErr.clientError ∧
    lookupStore (move_staging_to_projections overwriteStore "ds" (some 1)).1
      ["datasets", "ds", "projections", "a"] = Option.none :=
  ⟨rfl, rfl, rfl⟩

/-- Store of the rollback witness: two staged objects, no projection
objects at the destinations. -/
def rollbackStore : Store :=
  [(["datasets", "ds", "staging", "a"], Val.raw 1),
   (["datasets", "ds", "staging", "b"], Val.raw 2)]

theorem atomic_mover_rollback_witness :
    1 < (listKeys rollbackStore (stagingPfx "ds")).length ∧
    (∀ kf ∈ listKeys rollbackStore (stagingPfx "ds"),
      lookupStore rollbackStore
        (projectionsPfx "ds" ++ kf.drop (stagingPfx "ds").length) =
        Option.none) ∧
    ∃ S', move_staging_to_projections rollbackStore "ds" (some 1) =
        (S', Except.error PyErr.clientError) ∧
      ∀ k, lookupStore S' k = lookupStore rollbackStore k :=
  ⟨by decide, by decide,
    atomic_mover_rollback rollbackStore "ds" 1 (by decide) (by decide)⟩

/-- Versions namespace of a dataset. -/
def versionsPfx (d : String) : Key := ["datasets", d, "versions"]

/-- Version id extraction of the listing: the second-to-last path
component of a key with at least four components whose last component is
manifest.json, kept when it starts with the letter v. -/
def extractVersionId (k : Key) : Option String :=
  match k.reverse with
  | last :: vid :: rest2 =>
    if last = "manifest.json" ∧ 2 ≤ rest2.length ∧
        "v".data.isPrefixOf vid.data = true
    then some vid else Option.none
  | _ => Option.none

/-- Largest number of keys one list call returns, the backend page
size. -/
def s3MaxKeys : Nat := 1000

/-- Version manager listing: one unpaginated list call, with no
continuation handling (unlike the staging and mover listings), so only
the first page of at most 1000 keys under the versions namespace is
scanned; extract ids, deduplicate as a set, sort descending.  The model
takes the first page in store order; when the namespace fits one page,
as the theorem below assumes, the page is the complete listing. -/
def list_versions (S : Store) (d : String) : List String :=
  List.insertionSort (fun a b : String => b ≤ a)
    (((listKeys S (versionsPfx d)).take s3MaxKeys).filterMap
      extractVersionId).dedup

instance : IsTotal String (fun a b => b ≤ a) := ⟨fun a b => le_total b a⟩

instance : IsTrans String (fun a b => b ≤ a) :=
  ⟨fun _ _ _ h1 h2 => le_trans h2 h1⟩

/-- Store of the listing counterexample: a single four-component key
directly at datasets/dd/versions/manifest.json. -/
def strayStore : Store :=
  [(["datasets", "dd", "versions", "manifest.json"], Val.raw 0)]

/-- C8 counterexample: on a store holding the single key
datasets/dd/versions/manifest.json, listVersions returns the id
"versions" (the second-to-last component, which starts with v), yet no
version-manifest address datasets/dd/versions/versions/manifest.json
exists, so the returned list is not the set of version ids found under
the version-manifest namespace. -/
theorem list_versions_counterexample :
    list_versions strayStore "dd" = ["versions"] ∧
    lookupStore strayStore (versionManifestKey "dd" "versions") =
      Option.none :=
  ⟨rfl, rfl⟩

theorem digChar_lt_iff :
    ∀ d1 < 10, ∀ d2 < 10, (digChar d1 < digChar d2 ↔ d1 < d2) := by decide

/-- Lists whose characters are all decimal digit characters. -/
def allDigChar (l : List Char) : Prop :=
  ∀ c ∈ l, ∃ d2, d2 < 10 ∧ c = digChar d2

theorem natDigits_allDigChar (n : Nat) : allDigChar (natDigits n) := by
  induction n using Nat.strong_induction_on with
  | _ n ih =>
    rw [natDigits_unfold]
    split
    · next h =>
      intro c hc
      simp only [List.mem_singleton] at hc
      exact ⟨n, h, hc⟩
    · next h =>
      intro c hc
      rcases List.mem_append.mp hc with h1 | h2
      · exact ih (n / 10) (Nat.div_lt_self (by omega) (by omega)) c h1
      · simp only [List.mem_singleton] at h2
        exact ⟨n % 10, Nat.mod_lt _ (by omega), h2⟩

theorem padChars_allDigChar (w n : Nat) : allDigChar (padChars w n) := by
  intro c hc
  rcases List.mem_append.mp hc with h1 | h2
  · exact ⟨0, by omega, by rw [List.eq_of_mem_replicate h1]; rfl⟩
  · exact natDigits_allDigChar n c h2

theorem digitsToNat_cons (x : Char) (xs : List Char) :
    digitsToNat (x :: xs) = digVal x * 10 ^ xs.length + digitsToNat xs := by
  rw [show x :: xs = [x] ++ xs from rfl, digitsToNat_append]
  simp [digitsToNat]

theorem allDigChar_digVal_lt (l : List Char) (h : allDigChar l) :
    ∀ c ∈ l, digVal c < 10 := by
  intro c hc
  obtain ⟨d2, hd2, hcd⟩ := h c hc
  rw [hcd, digVal_digChar d2 hd2]
  exact hd2

theorem digit_list_lt : ∀ (xa xb : List Char), xa.length = xb.length →
    allDigChar xa → allDigChar xb → digitsToNat xa < digitsToNat xb →
    xa < xb := by
  intro xa
  induction xa with
  | nil =>
    intro xb hlen _ _ hv
    cases xb with
    | nil => simp [digitsToNat] at hv
    | cons y ys => simp at hlen
  | cons x xs ih =>
    intro xb hlen ha hb hv
    cases xb with
    | nil => simp at hlen
    | cons y ys =>
      obtain ⟨dx, hdx, hx⟩ := ha x (by simp)
      obtain ⟨dy, hdy, hy⟩ := hb y (by simp)
      have hlen2 : xs.length = ys.length := by simpa using hlen
      have hvx := digitsToNat_cons x xs
      have hvy := digitsToNat_cons y ys
      rcases Nat.lt_trichotomy dx dy with hlt | heq | hgt
      · exact List.Lex.rel
          (hx ▸ hy ▸ (digChar_lt_iff dx hdx dy hdy).mpr hlt)
      · have hxy : x = y := by rw [hx, hy, heq]
        subst hxy
        refine List.Lex.cons ?_
        refine ih ys hlen2 (fun c hc => ha c (by simp [hc]))
          (fun c hc => hb c (by simp [hc])) ?_
        rw [hvx, hvy, hlen2] at hv
        exact Nat.lt_of_add_lt_add_left hv
      · exfalso
        have hvb : digitsToNat ys < 10 ^ ys.length :=
          digitsToNat_lt ys (allDigChar_digVal_lt ys
            (fun c hc => hb c (by simp [hc])))
        have h1 : dy * 10 ^ ys.length + 10 ^ ys.length ≤ dx * 10 ^ ys.length := by
          have := Nat.mul_le_mul_right (10 ^ ys.length)
            (show dy + 1 ≤ dx by omega)
          rwa [add_mul, one_mul] at this
        rw [hvx, hvy, hlen2] at hv
        rw [hx, digVal_digChar dx hdx] at hv
        rw [hy, digVal_digChar dy hdy] at hv
        have hge : (0 : Nat) ≤ digitsToNat xs := Nat.zero_le _
        linarith

theorem lt_cons_same (c : Char) (a b : List Char) (h : a < b) :
    (c :: a) < (c :: b) :=
  List.Lex.cons h

theorem lt_append_right (p a b : List Char) (h : a < b) :
    (p ++ a) < (p ++ b) := by
  induction p with
  | nil => exact h
  | cons c cs ih => exact lt_cons_same c _ _ ih

theorem lt_append_left : ∀ (a b c e : List Char), a < b →
    a.length = b.length → (a ++ c) < (b ++ e) := by
  intro a
  induction a with
  | nil =>
    intro b c e h hlen
    cases b with
    | nil => cases h
    | cons y ys => simp at hlen
  | cons x xs ih =>
    intro b c e h hlen
    cases b with
    | nil => simp at hlen
    | cons y ys =>
      cases h with
      | rel hxy => exact List.Lex.rel hxy
      | cons h3 =>
        exact List.Lex.cons (ih ys c e h3 (by simpa using hlen))

theorem padChars_lt (w a b : Nat) (hab : a < b) (hb : b < 10 ^ w)
    (hw : 1 ≤ w) : padChars w a < padChars w b :=
  digit_list_lt _ _
    (by rw [padChars_length w a (lt_trans hab hb) hw, padChars_length w b hb hw])
    (padChars_allDigChar w a) (padChars_allDigChar w b)
    (by rw [digitsToNat_padChars, digitsToNat_padChars]; exact hab)

theorem extract_versionManifestKey (d vid : String)
    (h : "v".data.isPrefixOf vid.data = true) :
    extractVersionId (versionManifestKey d vid) = some vid := by
  unfold extractVersionId versionManifestKey
  rw [show (["datasets", d, "versions", vid, "manifest.json"] : Key).reverse =
    ["manifest.json", vid, "versions", d, "datasets"] from rfl]
  exact if_pos ⟨rfl, by simp, h⟩

theorem extractVersionId_some (k : Key) (vid : String)
    (h : extractVersionId k = some vid) :
    k.getLast? = some "manifest.json" := by
  unfold extractVersionId at h
  split at h
  · next last vid2 rest2 hrev =>
    split at h
    · next hcond =>
      rw [← List.head?_reverse, hrev, hcond.1]
      rfl
    · simp at h
  · simp at h

theorem versionsPfx_isPrefixOf_vmk (d vid : String) :
    (versionsPfx d).isPrefixOf (versionManifestKey d vid) = true := by
  simp [versionsPfx, versionManifestKey, List.isPrefixOf]

theorem versionManifestKey_inj (d vid1 vid2 : String)
    (h : versionManifestKey d vid1 = versionManifestKey d vid2) :
    vid1 = vid2 := by
  simp only [versionManifestKey, List.cons.injEq, and_true, true_and] at h
  exact h

/-- C8 (amended): provided the versions namespace holds at most one
listing page of keys (the listing issues a single unpaginated call, so
keys beyond the first page are silently dropped) and every key under the
namespace ending in manifest.json is a version-manifest address
datasets/d/versions/vid/manifest.json whose id starts with v (the
counterexample shows the listing also picks up ids from any deeper or
shallower key ending in manifest.json), listVersions returns exactly the
ids whose version-manifest address exists in the store, without
duplicates, sorted strictly descending; and on identifiers minted by
createVersion from in-range wall-clock readings this order is recency:
a later reading yields a strictly larger identifier, so the most recently
created id sorts first. -/
theorem list_versions_spec (S : Store) (d : String)
    (hpage : (listKeys S (versionsPfx d)).length ≤ s3MaxKeys)
    (hshape : ∀ k ∈ listKeys S (versionsPfx d),
      k.getLast? = some "manifest.json" →
      ∃ vid, k = versionManifestKey d vid ∧
        "v".data.isPrefixOf vid.data = true) :
    (∀ vid, vid ∈ list_versions S d ↔
      versionManifestKey d vid ∈ S.map Prod.fst) ∧
    (list_versions S d).Nodup ∧
    (list_versions S d).Pairwise (fun a b => b < a) ∧
    (∀ t1 t2 : Ts, validTs t1 → validTs t2 → tsKey t1 < tsKey t2 →
      create_new_version t1 < create_new_version t2) := by
  have hlv : list_versions S d =
      List.insertionSort (fun a b : String => b ≤ a)
        ((listKeys S (versionsPfx d)).filterMap extractVersionId).dedup := by
    unfold list_versions
    rw [List.take_of_length_le hpage]
  have hmemsort : ∀ vid, vid ∈ list_versions S d ↔
      vid ∈ (listKeys S (versionsPfx d)).filterMap extractVersionId := by
    intro vid
    rw [hlv, (List.perm_insertionSort _ _).mem_iff, List.mem_dedup]
  have hnodup : (list_versions S d).Nodup := by
    rw [hlv]
    exact ((List.perm_insertionSort _ _).nodup_iff).mpr (List.nodup_dedup _)
  refine ⟨?_, hnodup, ?_, ?_⟩
  · intro vid
    rw [hmemsort vid, List.mem_filterMap]
    constructor
    · rintro ⟨k, hk, hex⟩
      have hlast := extractVersionId_some k vid hex
      obtain ⟨vid2, hkey, hpv⟩ := hshape k hk hlast
      rw [hkey] at hex
      rw [extract_versionManifestKey d vid2 hpv] at hex
      have : vid2 = vid := by simpa using hex
      rw [← this]
      rw [hkey] at hk
      exact ((mem_listKeys S _ _).mp hk).1
    · intro hmem
      refine ⟨versionManifestKey d vid, ?_, ?_⟩
      · exact (mem_listKeys S _ _).mpr ⟨hmem, versionsPfx_isPrefixOf_vmk d vid⟩
      · have hk : versionManifestKey d vid ∈ listKeys S (versionsPfx d) :=
          (mem_listKeys S _ _).mpr ⟨hmem, versionsPfx_isPrefixOf_vmk d vid⟩
        have hlast : (versionManifestKey d vid).getLast? =
            some "manifest.json" := rfl
        obtain ⟨vid2, hkey, hpv⟩ := hshape _ hk hlast
        have : vid = vid2 := versionManifestKey_inj d vid vid2 hkey
        exact extract_versionManifestKey d vid (this ▸ hpv)
  · rw [hlv]
    have hsorted := List.sorted_insertionSort (fun a b : String => b ≤ a)
      ((listKeys S (versionsPfx d)).filterMap extractVersionId).dedup
    have hnodup2 : (List.insertionSort (fun a b : String => b ≤ a)
        ((listKeys S (versionsPfx d)).filterMap
          extractVersionId).dedup).Nodup := by
      rw [← hlv]
      exact hnodup
    exact (hsorted.and hnodup2).imp
      (fun hab => lt_of_le_of_ne hab.1 (fun he => hab.2 he.symm))
  · intro t1 t2 h1 h2 hlt
    obtain ⟨hy1, hmo1, hd1, hh1, hmi1, hs1, hu1⟩ := h1
    obtain ⟨hy2, hmo2, hd2, hh2, hmi2, hs2, hu2⟩ := h2
    have hcases : t1.year < t2.year ∨ (t1.year = t2.year ∧
        (t1.month < t2.month ∨ (t1.month = t2.month ∧
        (t1.day < t2.day ∨ (t1.day = t2.day ∧
        (t1.hour < t2.hour ∨ (t1.hour = t2.hour ∧
        (t1.minute < t2.minute ∨ (t1.minute = t2.minute ∧
        (t1.second < t2.second ∨ (t1.second = t2.second ∧
        t1.micro < t2.micro))))))))))) := by
      unfold tsKey at hlt
      omega
    rw [String.lt_iff_toList_lt]
    show (versionChars t1 : List Char) < versionChars t2
    unfold versionChars
    rcases hcases with hy | ⟨hy, hrest⟩
    · exact lt_cons_same _ _ _
        (lt_append_left _ _ _ _ (padChars_lt 4 _ _ hy (by omega) (by omega))
          (by rw [padChars_length 4 _ (by omega) (by omega),
            padChars_length 4 _ (by omega) (by omega)]))
    rw [← hy]
    rcases hrest with hmo | ⟨hmo, hrest⟩
    · exact lt_cons_same _ _ _ (lt_append_right _ _ _
        (lt_append_left _ _ _ _ (padChars_lt 2 _ _ hmo (by omega) (by omega))
          (by rw [padChars_length 2 _ (by omega) (by omega),
            padChars_length 2 _ (by omega) (by omega)])))
    rw [← hmo]
    rcases hrest with hd | ⟨hd, hrest⟩
    · exact lt_cons_same _ _ _ (lt_append_right _ _ _ (lt_append_right _ _ _
        (lt_append_left _ _ _ _ (padChars_lt 2 _ _ hd (by omega) (by omega))
          (by rw [padChars_length 2 _ (by omega) (by omega),
            padChars_length 2 _ (by omega) (by omega)]))))
    rw [← hd]
    rcases hrest with hh | ⟨hh, hrest⟩
    · exact lt_cons_same _ _ _ (lt_append_right _ _ _ (lt_append_right _ _ _
        (lt_append_right _ _ _ (lt_cons_same _ _ _
        (lt_append_left _ _ _ _ (padChars_lt 2 _ _ hh (by omega) (by omega))
          (by rw [padChars_length 2 _ (by omega) (by omega),
            padChars_length 2 _ (by omega) (by omega)]))))))
    rw [← hh]
    rcases hrest with hmi | ⟨hmi, hrest⟩
    · exact lt_cons_same _ _ _ (lt_append_right _ _ _ (lt_append_right _ _ _
        (lt_append_right _ _ _ (lt_cons_same _ _ _ (lt_append_right _ _ _
        (lt_append_left _ _ _ _ (padChars_lt 2 _ _ hmi (by omega) (by omega))
          (by rw [padChars_length 2 _ (by omega) (by omega),
            padChars_length 2 _ (by omega) (by omega)])))))))
    rw [← hmi]
    rcases hrest with hs | ⟨hs, hu⟩
    · exact lt_cons_same _ _ _ (lt_append_right _ _ _ (lt_append_right _ _ _
        (lt_append_right _ _ _ (lt_cons_same _ _ _ (lt_append_right _ _ _
        (lt_append_right _ _ _
        (lt_append_left _ _ _ _ (padChars_lt 2 _ _ hs (by omega) (by omega))
          (by rw [padChars_length 2 _ (by omega) (by omega),
            padChars_length 2 _ (by omega) (by omega)]))))))))
    rw [← hs]
    exact lt_cons_same _ _ _ (lt_append_right _ _ _ (lt_append_right _ _ _
      (lt_append_right _ _ _ (lt_cons_same _ _ _ (lt_append_right _ _ _
      (lt_append_right _ _ _ (lt_append_right _ _ _ (lt_cons_same _ _ _
      (padChars_lt 6 _ _ hu (by omega) (by omega))))))))))

/-- Store of the listing witness: two version manifests. -/
def versionsStore : Store :=
  [(versionManifestKey "dd" "v1", Val.raw 0),
   (versionManifestKey "dd" "v2", Val.raw 1)]

theorem list_versions_spec_witness :
    (listKeys versionsStore (versionsPfx "dd")).length ≤ s3MaxKeys ∧
    (∀ k ∈ listKeys versionsStore (versionsPfx "dd"),
      k.getLast? = some "manifest.json" →
      ∃ vid, k = versionManifestKey "dd" vid ∧
        "v".data.isPrefixOf vid.data = true) ∧
    ((∀ vid, vid ∈ list_versions versionsStore "dd" ↔
      versionManifestKey "dd" vid ∈ versionsStore.map Prod.fst) ∧
    (list_versions versionsStore "dd").Nodup ∧
    (list_versions versionsStore "dd").Pairwise (fun a b => b < a) ∧
    (∀ t1 t2 : Ts, validTs t1 → validTs t2 → tsKey t1 < tsKey t2 →
      create_new_version t1 < create_new_version t2)) := by
  have hshape : ∀ k ∈ listKeys versionsStore (versionsPfx "dd"),
      k.getLast? = some "manifest.json" →
      ∃ vid, k = versionManifestKey "dd" vid ∧
        "v".data.isPrefixOf vid.data = true := by
    intro k hk
    have hl : listKeys versionsStore (versionsPfx "dd") =
        [versionManifestKey "dd" "v1", versionManifestKey "dd" "v2"] := rfl
    rw [hl] at hk
    rcases List.mem_cons.mp hk with h | h
    · exact fun _ => ⟨"v1", h, rfl⟩
    · rcases List.mem_cons.mp h with h2 | h2
      · exact fun _ => ⟨"v2", h2, rfl⟩
      · simp at h2
  exact ⟨by decide, hshape,
    list_versions_spec versionsStore "dd" (by decide) hshape⟩
